import Mathlib

/-!
Verification of the beads-village coordination core (`src/beads_village/server.py`,
`src/beads_village/http_server.py`, `src/beads_village/agent_registry.py`)
against its natural-language specification.

The Python functions are shallowly embedded as executable Lean definitions.
Machine reals (POSIX timestamps) are modelled as `Nat` clock values, strings
as Lean `String`, and paths as `List Char` (the character sequence of the
Python `str`), so that the byte-level manipulations of `posixpath` can be
reproduced exactly.  Filesystem state is explicit: a reservation directory is
an association list keyed by the reservation file name, a mailbox directory
is a list of message files plus the `.read_<agent>` cursor sidecars.
-/

namespace BeadsVillage

/-! ## Path-safety utility (server.py: to_posix_path / normalize_path)

The Python implementation runs on POSIX (`os.path` = `posixpath`), so
`os.path.normpath`, `os.path.join`, `os.path.abspath`, `os.path.relpath`,
`os.path.isabs` and `os.sep = '/'` below are the `posixpath` versions,
transliterated from CPython's `Lib/posixpath.py`.  Paths are `List Char`.
-/

abbrev Chars := List Char

/-- Python `s.split('/')` on the character list of `s` (CPython semantics:
splitting the empty string yields `[""]`). -/
def splitSlash : Chars → List Chars
  | [] => [[]]
  | c :: rest =>
    if c = '/' then [] :: splitSlash rest
    else
      match splitSlash rest with
      | [] => [[c]]
      | p :: ps => (c :: p) :: ps

/-- Python `'/'.join(pieces)`. -/
def joinSlash : List Chars → Chars
  | [] => []
  | [p] => p
  | p :: ps => p ++ '/' :: joinSlash ps


/-- Leading-slash count of `posixpath.normpath`: one slash normally, two when
the path starts with exactly two slashes (POSIX-reserved), zero if relative. -/
def initialSlashes (l : Chars) : Nat :=
  if l.take 1 = ['/'] then
    if l.take 2 = ['/', '/'] ∧ l.take 3 ≠ ['/', '/', '/'] then 2 else 1
  else 0

/-- The component loop of `posixpath.normpath`: drop empty and `.` components,
push other components, let `..` pop the stack (except over leading `..` in a
relative path, and except at the root of an absolute path). `abs1` is the
truthiness of `initial_slashes`, `acc` is `new_comps`. -/
def normComps (abs1 : Bool) : List Chars → List Chars → List Chars
  | acc, [] => acc
  | acc, comp :: rest =>
    if comp = [] ∨ comp = ['.'] then normComps abs1 acc rest
    else if comp ≠ ['.', '.'] ∨ (abs1 = false ∧ acc = []) ∨ acc.getLast? = some ['.', '.'] then
      normComps abs1 (acc ++ [comp]) rest
    else if acc = [] then normComps abs1 acc rest
    else normComps abs1 acc.dropLast rest

/-- `posixpath.normpath` (CPython `Lib/posixpath.py`), on character lists. -/
def normpathL (l : Chars) : Chars :=
  if l = [] then ['.']
  else
    let k := initialSlashes l
    let comps := normComps (k != 0) [] (splitSlash l)
    let path := List.replicate k '/' ++ joinSlash comps
    if path = [] then ['.'] else path

/-- `posixpath.isabs`: `s.startswith('/')`. -/
def isabsL (l : Chars) : Bool :=
  l.take 1 = ['/']

/-- `posixpath.join` restricted to two arguments (the only form `normalize_path`
uses). -/
def pjoinL (a b : Chars) : Chars :=
  if isabsL b then b
  else if a = [] ∨ a.getLast? = some '/' then a ++ b
  else a ++ '/' :: b

/-- `posixpath.abspath` with the process working directory made explicit. -/
def abspathL (cwd l : Chars) : Chars :=
  normpathL (pjoinL cwd l)

/-- Length of `os.path.commonprefix` on two component lists. -/
def commonPrefixLen : List Chars → List Chars → Nat
  | x :: xs, y :: ys => if x = y then commonPrefixLen xs ys + 1 else 0
  | _, _ => 0

/-- `posixpath.relpath path start` with explicit working directory.  The final
`join(*rel_list)` degenerates to slash-interleaving because every component is
non-empty and slash-free. -/
def relpathL (cwd path start : Chars) : Chars :=
  let pl := (splitSlash (abspathL cwd path)).filter (fun x => x ≠ [])
  let sl := (splitSlash (abspathL cwd start)).filter (fun x => x ≠ [])
  let i := commonPrefixLen sl pl
  let rel := List.replicate (sl.length - i) ['.', '.'] ++ pl.drop i
  if rel = [] then ['.'] else joinSlash rel

/-- server.py `to_posix_path`: `path.replace("\\", "/")`. -/
def to_posixL (l : Chars) : Chars :=
  l.map fun c => if c = '\\' then '/' else c

/-- server.py `normalize_path`, the work done on the character list of the
input.  On escape the code raises `ValueError(f"Path outside workspace: …")`;
the model returns the offending input in `Except.error`. -/
def normalize_pathL (cwd ws path : Chars) : Except Chars Chars :=
  let clean_path := to_posixL path
  let abs_path :=
    if isabsL clean_path then normpathL clean_path
    else normpathL (pjoinL ws clean_path)
  let ws_abs := abspathL cwd ws
  if (ws_abs ++ ['/']).isPrefixOf abs_path ∨ abs_path = ws_abs then
    Except.ok (to_posixL (relpathL cwd abs_path ws))
  else
    Except.error path

/-- A path component that `normpath` passes through untouched: non-empty,
not `.`, not `..`, and free of separators. -/
def PlainComp (p : Chars) : Prop :=
  p ≠ [] ∧ p ≠ ['.'] ∧ p ≠ ['.', '.'] ∧ '/' ∉ p

instance (p : Chars) : Decidable (PlainComp p) := by
  unfold PlainComp; infer_instance

/-- A well-formed workspace root as the engine runs against it: an absolute,
already-normalized POSIX directory other than `/`, with a single leading
slash and no backslashes (`WS` comes from `os.getcwd()`, `BEADS_WS`, or
`os.path.abspath(args["ws"])`). -/
def GoodWS (ws : Chars) : Prop :=
  initialSlashes ws = 1 ∧ normpathL ws = ws ∧ ws ≠ ['/'] ∧ '\\' ∉ ws

instance (ws : Chars) : Decidable (GoodWS ws) := by
  unfold GoodWS; infer_instance

/-! ## Reservation engine (server.py: try_atomic_reserve, cleanup_expired_reservations,
get_active_reservations, tool_reserve, tool_release)

The `.reservations` directory is an association list from reservation file
key (`path_hash(path)`, the first 12 hex digits of the path's SHA-1) to the
parsed record.  The hash itself is opaque to the engine's logic, so it is a
parameter `ph` of every definition that the code computes `path_hash` in.
`datetime` values are `Nat` clock readings; `expires > now` becomes
`now < expires`.  Reads of malformed records (which the code tolerates by
falling through) cannot arise here because only the engine writes records;
`OSError` during a write (reported as a per-path failure) is likewise outside
the fault-free model. -/

structure Reservation where
  path : Chars
  agent : String
  reason : String
  created : Nat
  expires : Nat
deriving Repr, DecidableEq

/-- Contents of a `.reservations` directory: file key ↦ parsed record. -/
abbrev ResStore := List (Chars × Reservation)

def getRes : ResStore → Chars → Option Reservation
  | [], _ => none
  | (k, r) :: rest, key => if k = key then some r else getRes rest key

/-- `os.replace(tmp, res_file)`: the record now at `key`, other files intact. -/
def setRes (store : ResStore) (key : Chars) (r : Reservation) : ResStore :=
  (key, r) :: store.filter (fun kv => kv.1 ≠ key)

/-- `os.remove` of the file at `key`. -/
def delRes (store : ResStore) (key : Chars) : ResStore :=
  store.filter (fun kv => kv.1 ≠ key)

/-- server.py `try_atomic_reserve`: conflict iff an existing record is
unexpired and foreign; otherwise publish `reservation` over the slot. -/
def try_atomic_reserve (ph : Chars → Chars) (store : ResStore) (now : Nat)
    (agent : String) (path : Chars) (reservation : Reservation) :
    Bool × Option Reservation × ResStore :=
  let key := ph path
  match getRes store key with
  | some existing =>
    if now < existing.expires ∧ existing.agent ≠ agent then
      (false, some existing, store)
    else
      (true, none, setRes store key reservation)
  | none => (true, none, setRes store key reservation)

/-- server.py `cleanup_expired_reservations`: remove records with
`expires < now`, returning the cleaned count. -/
def cleanup_expired_reservations (store : ResStore) (now : Nat) : ResStore × Nat :=
  let kept := store.filter (fun kv => ¬ kv.2.expires < now)
  (kept, store.length - kept.length)

/-- server.py `get_active_reservations`: sweep, then list records with
`expires > now`. -/
def get_active_reservations (store : ResStore) (now : Nat) :
    List Reservation × ResStore :=
  let store1 := (cleanup_expired_reservations store now).1
  (store1.filterMap (fun kv => if now < kv.2.expires then some kv.2 else none),
   store1)

/-- Hash-consistency of a reservation directory: every record sits in the
file named by the hash of its own path.  Engine writes keep this invariant
(they store a record for `path` under `path_hash(path)`). -/
def WellFormedStore (ph : Chars → Chars) (store : ResStore) : Prop :=
  ∀ k r, getRes store k = some r → k = ph r.path

/-- Python `x or default` on an optional string (`""` is falsy). -/
def pyOrStr (o : Option String) (dflt : String) : String :=
  match o with
  | some s => if s = "" then dflt else s
  | none => dflt

structure ResConflict where
  path : Chars
  holder : String
  reason : String
  expires : Nat
deriving Repr, DecidableEq

structure ReserveResult where
  granted : List Chars
  conflicts : List ResConflict
  errors : List Chars
  expires : Option Nat
deriving Repr, DecidableEq

/-- The per-path loop of `tool_reserve`.  Produces (granted, conflicts,
errors, store, session additions); `errors` records the offending input path
(the code pairs it with the `ValueError` text). -/
def reserveLoop (ph : Chars → Chars) (cwd ws : Chars) (agent : String)
    (reason : String) (now expires : Nat) :
    List Chars → ResStore →
    List Chars × List ResConflict × List Chars × ResStore × List Chars
  | [], store => ([], [], [], store, [])
  | path :: rest, store =>
    match normalize_pathL cwd ws path with
    | .error _ =>
      let (g, c, e, store', adds) := reserveLoop ph cwd ws agent reason now expires rest store
      (g, c, path :: e, store', adds)
    | .ok normalized =>
      let reservation : Reservation := ⟨normalized, agent, reason, now, expires⟩
      match try_atomic_reserve ph store now agent normalized reservation with
      | (true, _, store1) =>
        let (g, c, e, store', adds) := reserveLoop ph cwd ws agent reason now expires rest store1
        (normalized :: g, c, e, store', normalized :: adds)
      | (false, some existing, store1) =>
        let (g, c, e, store', adds) := reserveLoop ph cwd ws agent reason now expires rest store1
        (g, ⟨normalized, existing.agent, existing.reason, existing.expires⟩ :: c, e, store', adds)
      | (false, none, store1) =>
        let (g, c, e, store', adds) := reserveLoop ph cwd ws agent reason now expires rest store1
        (g, c, normalized :: e, store', adds)

/-- server.py `tool_reserve` (singleton-string coercion of `paths` happens
before this point; an empty batch is the `"paths required"` error).  Returns
the result, the directory afterwards, and the paths added to
`S.reserved_files`. -/
def tool_reserve (ph : Chars → Chars) (cwd ws : Chars) (agent : String)
    (sessionIssue : Option String) (store : ResStore) (paths : List Chars)
    (ttl : Nat) (reasonArg : Option String) (now : Nat) :
    Except String ReserveResult × ResStore × List Chars :=
  if paths = [] then (.error "paths required", store, [])
  else
    let reason := match reasonArg with
      | some rsn => rsn
      | none => pyOrStr sessionIssue "editing"
    let expires := now + ttl
    let (g, c, e, store', adds) := reserveLoop ph cwd ws agent reason now expires paths store
    (.ok ⟨g, c, e, if g ≠ [] then some expires else none⟩, store', adds)

/-- Normalization as `tool_release` applies it: a failed normalization keeps
the raw path (`except ValueError: normalized = path`). -/
def releaseNorm (cwd ws : Chars) (path : Chars) : Chars :=
  match normalize_pathL cwd ws path with
  | .ok n => n
  | .error _ => path

/-- The per-path loop of `tool_release`: delete only records held by the
caller; tolerate absent files. -/
def releaseLoop (ph : Chars → Chars) (cwd ws : Chars) (agent : String) :
    List Chars → ResStore → List Chars × ResStore
  | [], store => ([], store)
  | path :: rest, store =>
    let normalized := releaseNorm cwd ws path
    let key := ph normalized
    match getRes store key with
    | some res =>
      if res.agent = agent then
        let (rel, store') := releaseLoop ph cwd ws agent rest (delRes store key)
        (normalized :: rel, store')
      else
        releaseLoop ph cwd ws agent rest store
    | none => releaseLoop ph cwd ws agent rest store

/-- server.py `tool_release`: empty argument releases everything recorded in
session state; each processed path and its normalization are discarded from
`S.reserved_files`. -/
def tool_release (ph : Chars → Chars) (cwd ws : Chars) (agent : String)
    (sessionReserved : List Chars) (store : ResStore) (pathsArg : List Chars) :
    List Chars × ResStore × List Chars :=
  let paths := if pathsArg = [] then sessionReserved else pathsArg
  let (released, store') := releaseLoop ph cwd ws agent paths store
  let sessionAfter := sessionReserved.filter
    (fun q => ¬ paths.any (fun path => q = path ∨ q = releaseNorm cwd ws path))
  (released, store', sessionAfter)

/-! ## Mailbox (server.py: send_msg, recv_msgs)

A mailbox directory holds message files plus one `.read_<agent>` cursor
sidecar per reader.  Message files are named `f"{ts:.6f}_{uuid4().hex[:6]}.json"`;
for epoch timestamps of a fixed digit count the lexicographic order of
`sorted(os.listdir(dir))` coincides with numeric order of the timestamp, and
the cursor sidecars (which begin with `'.'`) sort before every message file
and are skipped by the `startswith(".")` filter, so the message files the
code opens are exactly the last `min(50, count)` message files in timestamp
order.  The model therefore keys a file by its `Nat` timestamp, models the
listing as a stable sort of the message files by timestamp (Python's sort is
stable; `List.insertionSort` is the stable sort of identical behaviour), and
keeps cursors in a separate association list.  Message timestamps written by
concurrent senders are taken distinct per directory, which is the
"sortability and unique-ness" the file naming convention is specified to
provide. -/

structure MailMsg where
  f : String
  t : String
  s : String
  b : String
  ts : Nat
  thread : String
  imp : String
  issue : Option String
  ws : String
deriving Repr, DecidableEq

structure MsgFile where
  ts : Nat
  uniq : String
  msg : MailMsg
deriving Repr, DecidableEq

structure MailDir where
  files : List MsgFile
  cursors : List (String × Nat)
deriving Repr, DecidableEq

/-- A message as `recv_msgs` returns it: the decoded record, plus the
`_global` marker added to team-hub messages. -/
structure RecvMsg where
  msg : MailMsg
  isGlobal : Bool
deriving Repr, DecidableEq

def cursorLookup : List (String × Nat) → String → Option Nat
  | [], _ => none
  | (a, v) :: rest, agent => if a = agent then some v else cursorLookup rest agent

/-- Reading `.read_<agent>`: a missing or unparsable sidecar means `0.0`. -/
def getCursor (d : MailDir) (agent : String) : Nat :=
  (cursorLookup d.cursors agent).getD 0

/-- Writing `.read_<agent>`. -/
def setCursor (d : MailDir) (agent : String) (v : Nat) : MailDir :=
  { d with cursors := (agent, v) :: d.cursors.filter (fun av => av.1 ≠ agent) }

/-- `sorted(os.listdir(d))` restricted to the message files (see the section
comment). -/
def sortFiles (files : List MsgFile) : List MsgFile :=
  List.insertionSort (fun x y => x.ts ≤ y.ts) files

def takeLast (n : Nat) (l : List α) : List α := l.drop (l.length - n)

/-- `files[-50:]`: the message files the enumeration reads from disk. -/
def mailWindow (files : List MsgFile) : List MsgFile :=
  takeLast 50 (sortFiles files)

/-- One directory pass of `recv_msgs`: window, recipient filter, unread
filter against this reader's cursor, `_global` tagging. -/
def dirCollect (agent : String) (d : MailDir) (isGlob : Bool)
    (unread_only : Bool) : List RecvMsg :=
  let read_ts := getCursor d agent
  (mailWindow d.files).filterMap (fun mf =>
    if mf.msg.t ≠ "all" ∧ mf.msg.t ≠ agent then none
    else if unread_only ∧ mf.ts ≤ read_ts then none
    else some ⟨mf.msg, isGlob⟩)

/-- `msgs.sort(key=lambda x: x.get("ts", ""))` (stable). -/
def sortMsgs (msgs : List RecvMsg) : List RecvMsg :=
  List.insertionSort (fun x y => x.msg.ts ≤ y.msg.ts) msgs

/-- Python `l[-n:]` for a natural `n` (note `l[-0:]` is all of `l`). -/
def pySliceLast (n : Nat) (l : List α) : List α :=
  if n = 0 then l else l.drop (l.length - n)

/-- The two mailbox directories one `recv_msgs` call touches. -/
structure MailWorld where
  localDir : MailDir
  hubDir : MailDir
deriving Repr, DecidableEq

/-- server.py `recv_msgs`.  The cursor of a directory is rewritten to "now"
when the *cumulative* message list is non-empty once that directory has been
processed (the code tests the shared `msgs` accumulator, not the directory's
own contribution). -/
def recv_msgs (agent : String) (w : MailWorld) (n : Nat)
    (unread_only include_global : Bool) (now : Nat) :
    List RecvMsg × MailWorld :=
  let ms1 := dirCollect agent w.localDir false unread_only
  let localD1 := if ms1 ≠ [] then setCursor w.localDir agent now else w.localDir
  if include_global then
    let ms2 := dirCollect agent w.hubDir true unread_only
    let msgs := ms1 ++ ms2
    let hubD1 := if msgs ≠ [] then setCursor w.hubDir agent now else w.hubDir
    (pySliceLast n (sortMsgs msgs), ⟨localD1, hubD1⟩)
  else
    (pySliceLast n (sortMsgs ms1), ⟨localD1, w.hubDir⟩)

/-- The message record server.py `send_msg` builds (`thread` defaults to the
sender's current issue, `issue` records it, `ws` the source workspace). -/
def mkMsg (agent : String) (subj body to' thread_id importance : String)
    (sIssue : Option String) (ws : String) (nowTs : Nat) : MailMsg :=
  ⟨agent, to', subj, body, nowTs,
   (if thread_id ≠ "" then thread_id else pyOrStr sIssue ""),
   importance, sIssue, ws⟩

/-- server.py `send_msg`: one new message file in the chosen directory. -/
def send_msg (w : MailWorld) (global_broadcast : Bool) (mf : MsgFile) : MailWorld :=
  if global_broadcast then
    { w with hubDir := { w.hubDir with files := w.hubDir.files ++ [mf] } }
  else
    { w with localDir := { w.localDir with files := w.localDir.files ++ [mf] } }

/-- Selector for the directory a flag denotes (`false` = workspace `.mail/`,
`true` = team hub). -/
def dirOf (w : MailWorld) (g : Bool) : MailDir :=
  if g then w.hubDir else w.localDir

/-- The recipient filter of `recv_msgs`: a file survives iff addressed to
`"all"` or to the reading agent. -/
def recipOk (agent : String) (mf : MsgFile) : Prop :=
  mf.msg.t = "all" ∨ mf.msg.t = agent

instance (agent : String) (mf : MsgFile) : Decidable (recipOk agent mf) := by
  unfold recipOk; infer_instance

/-- Message files of both directories listed in strictly increasing
timestamp order — what `sorted(os.listdir)` yields when concurrent senders
get distinct timestamps (the uniqueness the filename convention provides). -/
def FilesOrdered (w : MailWorld) : Prop :=
  List.Pairwise (fun a b => a.ts < b.ts) w.localDir.files
  ∧ List.Pairwise (fun a b => a.ts < b.ts) w.hubDir.files

/-- Invariant behind cursor monotonicity: after a `recv` by `a` at time `τ`
that processed directory `g`, either the cursor already advanced past `τ`,
or every windowed file that passes the recipient filter is either already
read (at or below the cursor) or was written at `τ` or later. -/
def CursorInv (a : String) (g : Bool) (τ : Nat) (w : MailWorld) : Prop :=
  τ ≤ getCursor (dirOf w g) a ∨
  ∀ mf ∈ mailWindow (dirOf w g).files, recipOk a mf →
    (mf.ts ≤ getCursor (dirOf w g) a ∨ τ ≤ mf.ts)

instance : IsTotal MsgFile (fun x y => x.ts ≤ y.ts) :=
  ⟨fun a b => Nat.le_total a.ts b.ts⟩

instance : IsTrans MsgFile (fun x y => x.ts ≤ y.ts) :=
  ⟨fun _ _ _ hab hbc => Nat.le_trans hab hbc⟩

instance : IsTotal RecvMsg (fun x y => x.msg.ts ≤ y.msg.ts) :=
  ⟨fun a b => Nat.le_total a.msg.ts b.msg.ts⟩

instance : IsTrans RecvMsg (fun x y => x.msg.ts ≤ y.msg.ts) :=
  ⟨fun _ _ _ hab hbc => Nat.le_trans hab hbc⟩

/-- One observable mailbox event, stamped with the wall clock: a send (whose
file carries the current timestamp, fresh for its directory) or a receive by
any agent.  The clock never runs backwards. -/
inductive MailStep : MailWorld → Nat → MailWorld → Nat → Prop where
  | send (w : MailWorld) (t tN : Nat) (glob : Bool) (mf : MsgFile) (w' : MailWorld) :
      t ≤ tN → mf.ts = tN →
      (∀ mf' ∈ (if glob then w.hubDir.files else w.localDir.files), mf'.ts < mf.ts) →
      w' = send_msg w glob mf →
      MailStep w t w' tN
  | recv (w : MailWorld) (t tN : Nat) (a : String) (n : Nat) (u i : Bool) (w' : MailWorld) :
      t ≤ tN → w' = (recv_msgs a w n u i tN).2 →
      MailStep w t w' tN

/-- Reflexive-transitive closure of `MailStep`. -/
inductive MailReach : MailWorld → Nat → MailWorld → Nat → Prop where
  | refl (w : MailWorld) (t : Nat) : MailReach w t w t
  | step {w t w1 t1 w2 t2} : MailReach w t w1 t1 → MailStep w1 t1 w2 t2 →
      MailReach w t w2 t2

/-- Concrete mailbox scenario for the recv theorems: a hub-only message for
the counterexample, and an old local message followed by a fresh one for the
monotonicity witness. -/
def mfC5 : MsgFile := ⟨100, "u0", ⟨"A", "all", "s", "b", 100, "", "normal", none, "/ws"⟩⟩

def wC5 : MailWorld := ⟨⟨[], []⟩, ⟨[mfC5], []⟩⟩

def mfC6a : MsgFile := ⟨5, "u1", ⟨"A", "all", "s1", "b1", 5, "", "normal", none, "/ws"⟩⟩

def mfC6b : MsgFile := ⟨20, "u2", ⟨"A", "all", "s2", "b2", 20, "", "normal", none, "/ws"⟩⟩

def wC6 : MailWorld := ⟨⟨[mfC6a], []⟩, ⟨[], []⟩⟩

/-! ## Atomic-file publication (server.py: send_msg / register_agent /
try_atomic_reserve write paths)

A write site is a list of primitive filesystem events: truncating-open of a
path (`open(p, "w")` makes an empty file visible at `p`), a partial content
write (`json.dump` streams its output), and `os.replace`.  A crash is a
strict prefix of the event list; a concurrent reader sees the state after
any prefix. -/

inductive FsOp where
  | openTrunc (name : String)
  | writeChunk (name : String) (data : String)
  | rename (src dst : String)
deriving Repr, DecidableEq

abbrev FileSys := List (String × String)

def fsGet : FileSys → String → Option String
  | [], _ => none
  | (n, v) :: rest, name => if n = name then some v else fsGet rest name

def fsSet (fs : FileSys) (name v : String) : FileSys :=
  (name, v) :: fs.filter (fun kv => kv.1 ≠ name)

def fsDel (fs : FileSys) (name : String) : FileSys :=
  fs.filter (fun kv => kv.1 ≠ name)

def applyOp (fs : FileSys) : FsOp → FileSys
  | .openTrunc n => fsSet fs n ""
  | .writeChunk n d => fsSet fs n (((fsGet fs n).getD "") ++ d)
  | .rename src dst =>
    match fsGet fs src with
    | some v => fsSet (fsDel fs src) dst v
    | none => fs

def runOps (fs : FileSys) (ops : List FsOp) : FileSys := ops.foldl applyOp fs

/-- server.py `send_msg` writes the message with
`open(p, "w")` followed by `json.dump(msg, f)`: a truncating open of the
final path, then the payload chunks, no rename. -/
def send_msg_ops (p : String) (chunks : List String) : List FsOp :=
  FsOp.openTrunc p :: chunks.map (FsOp.writeChunk p)

/-- server.py `register_agent` (and `AgentRegistry._save` in
agent_registry.py) writes the registry record the same direct way. -/
def register_agent_ops (reg_file : String) (chunks : List String) : List FsOp :=
  FsOp.openTrunc reg_file :: chunks.map (FsOp.writeChunk reg_file)

/-- server.py `try_atomic_reserve` publication: `tempfile.mkstemp` sibling,
`json.dump` into it, then `os.replace(tmp_path, res_file)`. -/
def try_atomic_reserve_ops (tmp_path res_file : String) (chunks : List String) :
    List FsOp :=
  (FsOp.openTrunc tmp_path :: chunks.map (FsOp.writeChunk tmp_path)) ++
    [FsOp.rename tmp_path res_file]

/-- The full payload a write site streams: concatenation of its chunks. -/
def concatChunks : List String → String
  | [] => ""
  | c :: rest => c ++ concatChunks rest

/-- Atomic publication of `full` under `finalName`: a crash before completion
leaves the final name exactly as it was, the completed sequence leaves the
full payload, and a reader never observes anything but the prior state or the
full payload. -/
def publishes_atomically (fs0 : FileSys) (ops : List FsOp)
    (finalName full : String) : Prop :=
  (∀ k < ops.length, fsGet (runOps fs0 (ops.take k)) finalName = fsGet fs0 finalName)
  ∧ fsGet (runOps fs0 ops) finalName = some full
  ∧ (∀ k ≤ ops.length,
      fsGet (runOps fs0 (ops.take k)) finalName = fsGet fs0 finalName ∨
      fsGet (runOps fs0 (ops.take k)) finalName = some full)

/-! ## Tool dispatch over the two transports (server.py `TOOLS` /
`handle_request`, http_server.py `TOOL_FUNCTIONS` / `handle_tool_call` /
`preprocess_args`)

Tool arguments are JSON values; the model carries the shapes the coercion
logic distinguishes. -/

inductive JVal where
  | str (s : String)
  | int (n : Int)
  | float (q : ℚ)
  | boolean (b : Bool)
  | null
  | arr (xs : List JVal)
  | obj (kvs : List (String × JVal))

abbrev Args := List (String × JVal)

def argsGet : Args → String → Option JVal
  | [], _ => none
  | (k, v) :: rest, key => if k = key then some v else argsGet rest key

/-- `args[key] = v` for an existing key (the only use `preprocess_args`
makes). -/
def argsSet (args : Args) (key : String) (v : JVal) : Args :=
  args.map (fun kv => if kv.1 = key then (key, v) else kv)

/-- Outcome of one of the two stdlib parses inside `preprocess_args`: a
value, an exception its call site catches (`json.JSONDecodeError` for
`json.loads`; `ValueError` for the ttl conversion — a NaN float lands here
because the following `int()` raises `ValueError`), or an exception the
call site does not catch (`int()` of an infinite float raises
`OverflowError`; `json.loads` can raise `RecursionError` on pathological
nesting), which escapes `preprocess_args`.  The parses themselves are
parameters of the model, like the reservation key hash: the theorems
quantify over them, so they hold in particular at the real `json.loads`
and `float` semantics. -/
inductive PyRes (α : Type) where
  | val (a : α)
  | err
  | raise

/-- Python `str.lower()` on the character sequence (`Char.toLower`; the
strings in play are ASCII). -/
def py_lower (s : String) : String := String.mk (s.data.map Char.toLower)

/-- Python `str.strip()` (the whitespace forms in play are ASCII). -/
def py_strip (s : String) : String :=
  String.mk (((s.data.dropWhile Char.isWhitespace).reverse.dropWhile
    Char.isWhitespace).reverse)

/-- Python `s.startswith("[")`. -/
def startsLBracket (s : String) : Bool :=
  match s.data with
  | '[' :: _ => true
  | _ => false

/-- Python `s.endswith(c)` for a one-character suffix. -/
def endsWithChar (s : String) (c : Char) : Bool :=
  match s.data.getLast? with
  | some d => d = c
  | none => false

def digitsToNat (l : Chars) : Nat :=
  l.foldl (fun acc c => acc * 10 + (c.toNat - '0'.toNat)) 0

/-- Python `str.isdigit` (ASCII digits). -/
def pyIsDigit (s : String) : Bool :=
  s.data ≠ [] ∧ s.data.all Char.isDigit

def dropLastChar (s : String) : String := String.mk s.data.dropLast

/-- Python `int()` of a finite float value: truncation toward zero. -/
def pyTrunc (q : ℚ) : Int := if 0 ≤ q then Int.floor q else Int.ceil q

/-- One `list_field` iteration of `preprocess_args`: a string value that
after stripping starts with `[` is fed to `json.loads`; a parsed list of
any element shapes replaces the argument, any non-list parse or a decode
error leaves it unchanged, and an uncaught exception propagates (`none`). -/
def coerceListField (jl : String → PyRes JVal) (acc : Args) (field : String) :
    Option Args :=
  match argsGet acc field with
  | some (.str s) =>
    if startsLBracket (py_strip s) then
      match jl s with
      | .val (JVal.arr xs) => some (argsSet acc field (.arr xs))
      | .val _ => some acc
      | .err => some acc
      | .raise => none
    else some acc
  | _ => some acc

/-- The ttl arm of `preprocess_args`: a digit string becomes `int(val)`;
otherwise the value is lower-cased and stripped, a trailing `h`/`m`/`s`
selects the multiplier, and `int(float(val) * mult)` truncates the float
toward zero; a `ValueError` leaves the argument unchanged and an uncaught
exception propagates (`none`). -/
def coerceTtl (pf : String → PyRes ℚ) (args1 : Args) : Option Args :=
  match argsGet args1 "ttl" with
  | some (.str v) =>
    if pyIsDigit v then some (argsSet args1 "ttl" (.int (digitsToNat v.data)))
    else
      let val := py_strip (py_lower v)
      let mc : Nat × String :=
        if endsWithChar val 'h' then (3600, dropLastChar val)
        else if endsWithChar val 'm' then (60, dropLastChar val)
        else if endsWithChar val 's' then (1, dropLastChar val)
        else (1, val)
      match pf mc.2 with
      | .val q => some (argsSet args1 "ttl" (.int (pyTrunc (q * (mc.1 : ℚ)))))
      | .err => some args1
      | .raise => none
  | _ => some args1

/-- http_server.py `preprocess_args`, with `json.loads` and `float` held as
parameters: coerce each of `paths`, `deps`, `tags` in order, then `ttl`;
`none` is an exception escaping the function. -/
def preprocess_args (jl : String → PyRes JVal) (pf : String → PyRes ℚ)
    (name : String) (args : Args) : Option Args :=
  match coerceListField jl args "paths" with
  | none => none
  | some a1 =>
    match coerceListField jl a1 "deps" with
    | none => none
    | some a2 =>
      match coerceListField jl a2 "tags" with
      | none => none
      | some a3 => coerceTtl pf a3

/-- Key set of server.py `TOOLS` in insertion order (the base dict, then the
`bv_*` update, then the `village_tui` update). -/
def TOOLS_names : List String :=
  ["init", "claim", "done", "add", "assign", "ls", "ready", "show",
   "cleanup", "doctor", "sync", "reserve", "release", "reservations",
   "msg", "inbox", "broadcast", "discover", "status",
   "bv_insights", "bv_plan", "bv_priority", "bv_diff", "bv_tui", "bv_status",
   "village_tui"]

/-- Key set of http_server.py `TOOL_FUNCTIONS`. -/
def TOOL_FUNCTIONS_names : List String :=
  ["init", "claim", "done", "add", "ls", "show", "reserve", "release",
   "reservations", "msg", "inbox", "status", "sync", "cleanup", "doctor",
   "assign", "bv_insights", "bv_plan", "bv_priority", "bv_diff", "village_tui"]

/-- How a `tools/call` ends: a handler invocation, the unknown-tool error,
or an error response from an exception raised before dispatch. -/
inductive Dispatched where
  | handler (name : String) (args : Args)
  | unknownTool
  | raised

/-- server.py `handle_request`, `tools/call` arm: look the name up in `TOOLS`
and invoke the handler on the arguments exactly as received (no coercion);
an unknown name is the −32601 error. -/
def stream_tools_call (name : String) (args : Args) : Dispatched :=
  if name ∈ TOOLS_names then .handler name args else .unknownTool

/-- http_server.py `handle_tool_call`: look the name up in `TOOL_FUNCTIONS`
(an unknown name raises, and the POST handler's catch-all answers with the
−32000 error), apply `preprocess_args` — an exception it lets escape ends
the request the same way, with no handler invoked — then call the handler
on the coerced arguments. -/
def http_tools_call (jl : String → PyRes JVal) (pf : String → PyRes ℚ)
    (name : String) (args : Args) : Dispatched :=
  if name ∈ TOOL_FUNCTIONS_names then
    match preprocess_args jl pf name args with
    | some args2 => .handler name args2
    | none => .raised
  else .unknownTool

/-! ## Claim and done (server.py: tool_claim, tool_done)

The issue store is the external collaborator; its responses are inputs of
the model.  Outputs record the store calls issued and the messages sent, so
"does not mutate the store" is the absence of `update`/`close` calls. -/

structure Issue where
  id : String
  title : String
  priority : Nat
  tags : List String
deriving Repr, DecidableEq

inductive BdCall where
  | sync
  | ready
  | update (id status : String)
  | close (id reason : String)
deriving Repr, DecidableEq

inductive ClaimRes where
  | err (e : String)
  | noReady
  | noRole (role : String) (msg : String)
  | claimed (issue : Issue)
deriving Repr, DecidableEq

/-- The role filter of `tool_claim`: keep issues with no tags, or whose
lower-cased tags contain `S.role` (the role itself is stored lower-cased by
`tool_init`). -/
def claim_filter (role : String) (issues : List Issue) : List Issue :=
  issues.filter (fun issue =>
    decide (issue.tags = [] ∨ role ∈ issue.tags.map py_lower))

/-- server.py `tool_init` stores `S.role = args["role"].lower().strip()`. -/
def init_role (x : String) : String := (py_lower x).trim

/-- server.py `tool_claim` given the `bd ready` response.  Returns the
result, the store calls issued, and the `(subject, body)` messages sent. -/
def tool_claim (role : Option String) (readyResp : Except String (List Issue)) :
    ClaimRes × List BdCall × List (String × String) :=
  match readyResp with
  | .error e => (.err e, [.sync, .ready], [])
  | .ok r =>
    if r = [] then (.noReady, [.sync, .ready], [])
    else
      match role with
      | some ro =>
        match claim_filter ro r with
        | [] => (.noRole ro ("no tasks for role '" ++ ro ++ "'"), [.sync, .ready], [])
        | issue :: _ =>
          (.claimed issue, [.sync, .ready, .update issue.id "in_progress"],
           [("claimed:" ++ issue.id, issue.title ++ " [" ++ ro ++ "]")])
      | none =>
        match r with
        | [] => (.noReady, [.sync, .ready], [])
        | issue :: _ =>
          (.claimed issue, [.sync, .ready, .update issue.id "in_progress"],
           [("claimed:" ++ issue.id, issue.title)])

/-- The slice of session state `tool_done` touches. -/
structure DoneSession where
  issue : Option String
  current_task : Option String
  doneCount : Nat
  reserved_files : List Chars
deriving Repr, DecidableEq

inductive DoneRes where
  | errNoId
  | errClose (e : String)
  | ok (done : Nat)
deriving Repr, DecidableEq

/-- server.py `tool_done` given the `bd close` response: on close failure the
error envelope is returned before any reservation file is removed, any
message sent, or any session field changed. -/
def tool_done (ph : Chars → Chars) (argId : Option String) (argMsg : Option String)
    (sess : DoneSession) (store : ResStore) (closeResp : Except String Unit) :
    DoneRes × DoneSession × ResStore × List (String × String) × List BdCall :=
  let issue_id := match argId with
    | some v => some v
    | none => sess.issue
  match issue_id with
  | none => (.errNoId, sess, store, [], [])
  | some iid =>
    if iid = "" then (.errNoId, sess, store, [], [])
    else
      let msg := argMsg.getD "completed"
      match closeResp with
      | .error e => (.errClose e, sess, store, [], [.close iid msg])
      | .ok _ =>
        let store' := sess.reserved_files.foldl (fun st p => delRes st (ph p)) store
        (.ok (sess.doneCount + 1),
         ⟨none, none, sess.doneCount + 1, []⟩,
         store', [("done:" ++ iid, msg)], [.close iid msg, .sync])

/-! ## Theorems. First, the `posixpath` theory used by the path-confinement
and idempotence claims. -/

theorem splitSlash_ne_nil (l : Chars) : splitSlash l ≠ [] := by
  cases l with
  | nil => simp [splitSlash]
  | cons c rest =>
    simp only [splitSlash]
    split
    · simp
    · cases h : splitSlash rest <;> simp

theorem joinSlash_splitSlash (l : Chars) : joinSlash (splitSlash l) = l := by
  induction l with
  | nil => rfl
  | cons c rest ih =>
    simp only [splitSlash]
    by_cases hc : c = '/'
    · subst hc
      simp only [if_pos rfl]
      cases h : splitSlash rest with
      | nil => exact absurd h (splitSlash_ne_nil rest)
      | cons p ps =>
        rw [h] at ih
        simp only [joinSlash]
        cases ps <;> simp_all [joinSlash]
    · simp only [if_neg hc]
      cases h : splitSlash rest with
      | nil => exact absurd h (splitSlash_ne_nil rest)
      | cons p ps =>
        rw [h] at ih
        cases ps <;> simp_all [joinSlash]

theorem splitSlash_no_slash (l : Chars) : ∀ p ∈ splitSlash l, '/' ∉ p := by
  induction l with
  | nil => simp [splitSlash]
  | cons c rest ih =>
    by_cases hc : c = '/'
    · subst hc
      simp only [splitSlash, if_pos rfl]
      intro p hp
      rcases List.mem_cons.mp hp with hp | hp
      · simp [hp]
      · exact ih p hp
    · simp only [splitSlash, if_neg hc]
      cases h : splitSlash rest with
      | nil => exact absurd h (splitSlash_ne_nil rest)
      | cons q qs =>
        intro p hp
        rcases List.mem_cons.mp hp with hp | hp
        · subst hp
          intro hmem
          rcases List.mem_cons.mp hmem with hmem | hmem
          · exact hc hmem.symm
          · exact ih q (h ▸ List.mem_cons_self _ _) hmem
        · exact ih p (h ▸ List.mem_cons_of_mem _ hp)

/-- Splitting distributes over a separating slash. -/
theorem splitSlash_append_slash (a b : Chars) :
    splitSlash (a ++ '/' :: b) = splitSlash a ++ splitSlash b := by
  induction a with
  | nil => simp [splitSlash]
  | cons c rest ih =>
    by_cases hc : c = '/'
    · subst hc
      simp [splitSlash, ih]
    · cases h : splitSlash rest with
      | nil => exact absurd h (splitSlash_ne_nil rest)
      | cons p ps =>
        simp only [List.cons_append, splitSlash, if_neg hc, ih, h]
        rw [show rest.append ('/' :: b) = rest ++ '/' :: b from rfl, ih, h]
        rfl

theorem splitSlash_of_no_slash (p : Chars) (hp : '/' ∉ p) : splitSlash p = [p] := by
  induction p with
  | nil => rfl
  | cons c rest ih =>
    simp only [splitSlash]
    rw [if_neg (by intro h; exact hp (h ▸ List.mem_cons_self _ _))]
    rw [ih (fun h => hp (List.mem_cons_of_mem _ h))]

theorem splitSlash_joinSlash (ps : List Chars) (hne : ps ≠ [])
    (hp : ∀ p ∈ ps, '/' ∉ p) : splitSlash (joinSlash ps) = ps := by
  induction ps with
  | nil => exact absurd rfl hne
  | cons p ps ih =>
    cases ps with
    | nil => exact splitSlash_of_no_slash p (hp p (List.mem_cons_self _ _))
    | cons q qs =>
      have : joinSlash (p :: q :: qs) = p ++ '/' :: joinSlash (q :: qs) := rfl
      rw [this, splitSlash_append_slash,
        splitSlash_of_no_slash p (hp p (List.mem_cons_self _ _)),
        ih (by simp) (fun r hr => hp r (List.mem_cons_of_mem _ hr))]
      rfl

theorem joinSlash_append (xs ys : List Chars) (hxs : xs ≠ []) (hys : ys ≠ []) :
    joinSlash (xs ++ ys) = joinSlash xs ++ '/' :: joinSlash ys := by
  induction xs with
  | nil => exact absurd rfl hxs
  | cons x xs ih =>
    cases xs with
    | nil =>
      cases ys with
      | nil => exact absurd rfl hys
      | cons y ys => rfl
    | cons x' xs' =>
      calc joinSlash ((x :: x' :: xs') ++ ys)
          = x ++ '/' :: joinSlash ((x' :: xs') ++ ys) := rfl
        _ = x ++ '/' :: (joinSlash (x' :: xs') ++ '/' :: joinSlash ys) := by
              rw [ih (by simp)]
        _ = (x ++ '/' :: joinSlash (x' :: xs')) ++ '/' :: joinSlash ys := by simp
        _ = joinSlash (x :: x' :: xs') ++ '/' :: joinSlash ys := rfl

theorem chars_joinSlash (ps : List Chars) (c : Char) (hc : c ∈ joinSlash ps) :
    c = '/' ∨ ∃ p ∈ ps, c ∈ p := by
  induction ps with
  | nil => simp [joinSlash] at hc
  | cons p ps ih =>
    cases ps with
    | nil =>
      right
      exact ⟨p, List.mem_cons_self _ _, hc⟩
    | cons q qs =>
      have : joinSlash (p :: q :: qs) = p ++ '/' :: joinSlash (q :: qs) := rfl
      rw [this] at hc
      rcases List.mem_append.mp hc with h | h
      · exact Or.inr ⟨p, List.mem_cons_self _ _, h⟩
      · rcases List.mem_cons.mp h with h | h
        · exact Or.inl h
        · rcases ih h with h | ⟨r, hr, hcr⟩
          · exact Or.inl h
          · exact Or.inr ⟨r, List.mem_cons_of_mem _ hr, hcr⟩

theorem mem_splitSlash_chars (l : Chars) (p : Chars) (hp : p ∈ splitSlash l)
    (c : Char) (hc : c ∈ p) : c ∈ l := by
  induction l generalizing p with
  | nil =>
    simp [splitSlash] at hp
    subst hp
    exact absurd hc (List.not_mem_nil c)
  | cons d rest ih =>
    by_cases hd : d = '/'
    · subst hd
      simp only [splitSlash, if_pos rfl] at hp
      rcases List.mem_cons.mp hp with hp | hp
      · subst hp; exact absurd hc (List.not_mem_nil c)
      · exact List.mem_cons_of_mem _ (ih p hp hc)
    · simp only [splitSlash, if_neg hd] at hp
      cases h : splitSlash rest with
      | nil => exact absurd h (splitSlash_ne_nil rest)
      | cons q qs =>
        rw [h] at hp
        rcases List.mem_cons.mp hp with hp | hp
        · subst hp
          rcases List.mem_cons.mp hc with hc | hc
          · exact hc ▸ List.mem_cons_self _ _
          · exact List.mem_cons_of_mem _ (ih q (h ▸ List.mem_cons_self _ _) hc)
        · exact List.mem_cons_of_mem _ (ih p (h ▸ List.mem_cons_of_mem _ hp) hc)

theorem mem_normComps (abs1 : Bool) (comps : List Chars) (acc : List Chars)
    (x : Chars) (hx : x ∈ normComps abs1 acc comps) : x ∈ acc ∨ x ∈ comps := by
  induction comps generalizing acc with
  | nil => exact Or.inl hx
  | cons comp rest ih =>
    simp only [normComps] at hx
    split at hx
    · rcases ih _ hx with h | h
      · exact Or.inl h
      · exact Or.inr (List.mem_cons_of_mem _ h)
    · split at hx
      · rcases ih _ hx with h | h
        · rcases List.mem_append.mp h with h | h
          · exact Or.inl h
          · simp at h
            exact Or.inr (h ▸ List.mem_cons_self _ _)
        · exact Or.inr (List.mem_cons_of_mem _ h)
      · split at hx
        · rcases ih _ hx with h | h
          · exact Or.inl h
          · exact Or.inr (List.mem_cons_of_mem _ h)
        · rcases ih _ hx with h | h
          · exact Or.inl (List.dropLast_subset _ h)
          · exact Or.inr (List.mem_cons_of_mem _ h)

theorem normComps_plain_id (abs1 : Bool) (comps : List Chars) (acc : List Chars)
    (h : ∀ p ∈ comps, PlainComp p) : normComps abs1 acc comps = acc ++ comps := by
  induction comps generalizing acc with
  | nil => simp [normComps]
  | cons comp rest ih =>
    obtain ⟨h1, h2, h3, _⟩ := h comp (List.mem_cons_self _ _)
    simp only [normComps]
    rw [if_neg (by simp [h1, h2]), if_pos (Or.inl h3),
      ih _ (fun p hp => h p (List.mem_cons_of_mem _ hp))]
    simp

theorem normComps_true_plain (comps : List Chars) (acc : List Chars)
    (hacc : ∀ p ∈ acc, PlainComp p) (hcomps : ∀ p ∈ comps, '/' ∉ p) :
    ∀ x ∈ normComps true acc comps, PlainComp x := by
  induction comps generalizing acc with
  | nil => exact hacc
  | cons comp rest ih =>
    intro x hx
    simp only [normComps] at hx
    split at hx
    · exact ih _ hacc (fun p hp => hcomps p (List.mem_cons_of_mem _ hp)) x hx
    · rename_i hskip
      split at hx
      · rename_i happ
        refine ih _ ?_ (fun p hp => hcomps p (List.mem_cons_of_mem _ hp)) x hx
        intro p hp
        rcases List.mem_append.mp hp with hp | hp
        · exact hacc p hp
        · simp at hp
          subst hp
          rcases happ with h | h | h
          · push_neg at hskip
            exact ⟨hskip.1, hskip.2, h, hcomps p (List.mem_cons_self _ _)⟩
          · simp at h
          · exact absurd (hacc _ (List.mem_of_mem_getLast? h)) (fun hpl => hpl.2.2.1 rfl)
      · split at hx
        · exact ih _ hacc (fun p hp => hcomps p (List.mem_cons_of_mem _ hp)) x hx
        · exact ih _ (fun p hp => hacc p (List.dropLast_subset _ hp))
            (fun p hp => hcomps p (List.mem_cons_of_mem _ hp)) x hx

theorem normComps_append (abs1 : Bool) (xs ys : List Chars) (acc : List Chars) :
    normComps abs1 acc (xs ++ ys) = normComps abs1 (normComps abs1 acc xs) ys := by
  induction xs generalizing acc with
  | nil => rfl
  | cons comp rest ih =>
    simp only [List.cons_append, normComps]
    split
    · exact ih _
    · split
      · exact ih _
      · split
        · exact ih _
        · exact ih _

theorem joinSlash_head (acomps : List Chars) (a : Chars) (rest : List Chars)
    (h : acomps = a :: rest) (c : Char) (a' : Chars) (ha : a = c :: a') :
    ∃ tail, joinSlash acomps = c :: tail := by
  subst h; subst ha
  cases rest with
  | nil => exact ⟨a', rfl⟩
  | cons r rs => exact ⟨a' ++ '/' :: joinSlash (r :: rs), rfl⟩

theorem joinSlash_ne_nil_of_head (a : Chars) (rest : List Chars) (ha : a ≠ []) :
    joinSlash (a :: rest) ≠ [] := by
  cases rest with
  | nil => simpa [joinSlash] using ha
  | cons r rs =>
    cases a with
    | nil => exact absurd rfl ha
    | cons c a' => simp [joinSlash]

theorem initialSlashes_plainish (acomps : List Chars) (hne : acomps ≠ [])
    (h : ∀ p ∈ acomps, p ≠ [] ∧ '/' ∉ p) :
    initialSlashes ('/' :: joinSlash acomps) = 1 := by
  obtain ⟨a, rest, rfl⟩ : ∃ a rest, acomps = a :: rest := by
    cases acomps with
    | nil => exact absurd rfl hne
    | cons a rest => exact ⟨a, rest, rfl⟩
  obtain ⟨ha, hsl⟩ := h a (List.mem_cons_self _ _)
  obtain ⟨c, a', rfl⟩ : ∃ c a', a = c :: a' := by
    cases a with
    | nil => exact absurd rfl ha
    | cons c a' => exact ⟨c, a', rfl⟩
  have hc : c ≠ '/' := fun hcc => hsl (hcc ▸ List.mem_cons_self _ _)
  obtain ⟨tail, htail⟩ := joinSlash_head _ _ rest rfl c a' rfl
  rw [htail]
  simp [initialSlashes, hc]

theorem splitSlash_abs (acomps : List Chars) (hne : acomps ≠ [])
    (hsl : ∀ p ∈ acomps, '/' ∉ p) :
    splitSlash ('/' :: joinSlash acomps) = [] :: acomps := by
  have : splitSlash ('/' :: joinSlash acomps) = [] :: splitSlash (joinSlash acomps) := by
    simp [splitSlash]
  rw [this, splitSlash_joinSlash acomps hne hsl]

theorem normpathL_plain_fixed (acomps : List Chars) (hne : acomps ≠ [])
    (hplain : ∀ p ∈ acomps, PlainComp p) :
    normpathL ('/' :: joinSlash acomps) = '/' :: joinSlash acomps := by
  have hk : initialSlashes ('/' :: joinSlash acomps) = 1 :=
    initialSlashes_plainish acomps hne (fun p hp => ⟨(hplain p hp).1, (hplain p hp).2.2.2⟩)
  have hsplit := splitSlash_abs acomps hne (fun p hp => (hplain p hp).2.2.2)
  have hcomp : normComps ((1 : Nat) != 0) [] ([] :: acomps) = acomps := by
    rw [show normComps ((1 : Nat) != 0) [] ([] :: acomps) = normComps true [] acomps from rfl,
      normComps_plain_id true acomps [] hplain]
    simp
  simp only [normpathL]
  rw [if_neg (by simp)]
  rw [hk, hsplit, hcomp]
  simp

theorem isabsL_cons (c : Char) (l : Chars) : isabsL (c :: l) = decide (c = '/') := by
  simp [isabsL]

theorem normpathL_abs_shape (l : Chars) (habs : isabsL l = true) :
    ∃ comps, (∀ p ∈ comps, PlainComp p) ∧ (∀ x ∈ comps, ∀ c ∈ x, c ∈ l) ∧
      normpathL l = List.replicate (initialSlashes l) '/' ++ joinSlash comps ∧
      1 ≤ initialSlashes l := by
  obtain ⟨rest, rfl⟩ : ∃ rest, l = '/' :: rest := by
    cases l with
    | nil => simp [isabsL] at habs
    | cons c cs =>
      rw [isabsL_cons] at habs
      simp at habs
      exact ⟨cs, by rw [habs]⟩
  have hk1 : 1 ≤ initialSlashes ('/' :: rest) := by
    by_contra h
    push_neg at h
    interval_cases h' : initialSlashes ('/' :: rest)
    · simp [initialSlashes] at h'
      split at h' <;> simp_all
  have hkne : ((initialSlashes ('/' :: rest)) != 0) = true := by
    simp only [bne_iff_ne, ne_eq]
    omega
  refine ⟨normComps true [] (splitSlash ('/' :: rest)), ?_, ?_, ?_, hk1⟩
  · exact normComps_true_plain _ [] (by simp) (splitSlash_no_slash _)
  · intro x hx c hc
    rcases mem_normComps true _ [] x hx with h | h
    · exact absurd h (List.not_mem_nil x)
    · exact mem_splitSlash_chars _ x h c hc
  · simp only [normpathL]
    rw [if_neg (by simp), hkne]
    rw [if_neg ?_]
    have := hk1
    cases hk : initialSlashes ('/' :: rest) with
    | zero => omega
    | succ n => simp [List.replicate]

theorem GoodWS_decomp (ws : Chars) (h : GoodWS ws) :
    ∃ wcomps, wcomps ≠ [] ∧ (∀ p ∈ wcomps, PlainComp p) ∧
      (∀ p ∈ wcomps, '\\' ∉ p) ∧ ws = '/' :: joinSlash wcomps := by
  obtain ⟨hk, hfix, hroot, hbs⟩ := h
  have habs : isabsL ws = true := by
    cases ws with
    | nil => simp [initialSlashes] at hk
    | cons c cs =>
      rw [isabsL_cons]
      simp only [initialSlashes] at hk
      split at hk
      · rename_i hcond
        simp at hcond
        simp [hcond]
      · simp at hk
  obtain ⟨comps, hplain, hchars, hshape, _⟩ := normpathL_abs_shape ws habs
  rw [hk] at hshape
  have hws : ws = '/' :: joinSlash comps := by
    rw [← hfix, hshape]; rfl
  have hcne : comps ≠ [] := by
    intro hc
    subst hc
    simp [joinSlash] at hws
    exact hroot hws
  refine ⟨comps, hcne, hplain, ?_, hws⟩
  intro p hp hbsp
  exact hbs (hchars p hp '\\' hbsp)

theorem abspathL_of_abs (cwd Y : Chars) (h : isabsL Y = true) :
    abspathL cwd Y = normpathL Y := by
  simp [abspathL, pjoinL, h]

theorem abspathL_goodWS (cwd ws : Chars) (h : GoodWS ws) : abspathL cwd ws = ws := by
  obtain ⟨wcomps, hne, hplain, _, hws⟩ := GoodWS_decomp ws h
  rw [abspathL_of_abs cwd ws (by rw [hws, isabsL_cons]; simp), h.2.1]

theorem commonPrefixLen_self_append (xs ys : List Chars) :
    commonPrefixLen xs (xs ++ ys) = xs.length := by
  induction xs with
  | nil => cases ys <;> simp [commonPrefixLen]
  | cons x xs ih => simp [commonPrefixLen, ih]

theorem commonPrefixLen_self (xs : List Chars) :
    commonPrefixLen xs xs = xs.length := by
  induction xs with
  | nil => simp [commonPrefixLen]
  | cons x xs ih => simp [commonPrefixLen, ih]

theorem joinSlash_getLast_ne_slash (ps : List Chars) (hne : ps ≠ [])
    (h : ∀ p ∈ ps, p ≠ [] ∧ '/' ∉ p) :
    ∀ c, (joinSlash ps).getLast? = some c → c ≠ '/' := by
  induction ps with
  | nil => exact absurd rfl hne
  | cons p qs ih =>
    intro c hc
    cases qs with
    | nil =>
      have : c ∈ p := List.mem_of_mem_getLast? hc
      exact fun hcc => (h p (List.mem_cons_self _ _)).2 (hcc ▸ this)
    | cons q qs' =>
      have hq : q ≠ [] := (h q (List.mem_cons_of_mem _ (List.mem_cons_self _ _))).1
      have hjq : joinSlash (q :: qs') ≠ [] := joinSlash_ne_nil_of_head q qs' hq
      have hstep : joinSlash (p :: q :: qs') = (p ++ ['/']) ++ joinSlash (q :: qs') := by
        show p ++ '/' :: joinSlash (q :: qs') = (p ++ ['/']) ++ joinSlash (q :: qs')
        simp
      rw [hstep, List.getLast?_append_of_ne_nil _ hjq] at hc
      exact ih (by simp) (fun r hr => h r (List.mem_cons_of_mem _ hr)) c hc

theorem goodWS_getLast (ws : Chars) (h : GoodWS ws) : ws.getLast? ≠ some '/' := by
  obtain ⟨wcomps, hne, hplain, _, hws⟩ := GoodWS_decomp ws h
  obtain ⟨w, rest, rfl⟩ : ∃ w rest, wcomps = w :: rest := by
    cases wcomps with
    | nil => exact absurd rfl hne
    | cons w rest => exact ⟨w, rest, rfl⟩
  have hjne : joinSlash (w :: rest) ≠ [] :=
    joinSlash_ne_nil_of_head w rest (hplain w (List.mem_cons_self _ _)).1
  rw [hws]
  rw [show ('/' :: joinSlash (w :: rest)) = ['/'] ++ joinSlash (w :: rest) from rfl,
    List.getLast?_append_of_ne_nil _ hjne]
  intro hc
  exact joinSlash_getLast_ne_slash (w :: rest) (by simp)
    (fun p hp => ⟨(hplain p hp).1, (hplain p hp).2.2.2⟩) '/' hc rfl

theorem isabsL_joinSlash_plain (rcomps : List Chars) (hne : rcomps ≠ [])
    (hplain : ∀ p ∈ rcomps, PlainComp p) : isabsL (joinSlash rcomps) = false := by
  obtain ⟨r, rest, rfl⟩ : ∃ r rest, rcomps = r :: rest := by
    cases rcomps with
    | nil => exact absurd rfl hne
    | cons r rest => exact ⟨r, rest, rfl⟩
  obtain ⟨c, r', rfl⟩ : ∃ c r', r = c :: r' := by
    cases r with
    | nil => exact absurd rfl (hplain _ (List.mem_cons_self _ _)).1
    | cons c r' => exact ⟨c, r', rfl⟩
  have hc : c ≠ '/' := fun hcc =>
    (hplain _ (List.mem_cons_self _ _)).2.2.2 (hcc ▸ List.mem_cons_self _ _)
  obtain ⟨tail, htail⟩ := joinSlash_head _ _ rest rfl c r' rfl
  rw [htail, isabsL_cons]
  simp [hc]

theorem filter_ne_nil_of_plain (cs : List Chars) (h : ∀ p ∈ cs, p ≠ []) :
    cs.filter (fun x => x ≠ []) = cs := by
  rw [List.filter_eq_self]
  intro a ha
  simp [h a ha]

theorem relpathL_same (cwd ws : Chars) (h : GoodWS ws) : relpathL cwd ws ws = ['.'] := by
  obtain ⟨wcomps, hne, hplain, _, hws⟩ := GoodWS_decomp ws h
  have habspath : abspathL cwd ws = ws := abspathL_goodWS cwd ws h
  have hsplit : splitSlash ws = [] :: wcomps := by
    rw [hws]
    exact splitSlash_abs wcomps hne (fun p hp => (hplain p hp).2.2.2)
  simp only [relpathL, habspath, hsplit]
  rw [show List.filter (fun x => x ≠ []) ([] :: wcomps) =
      List.filter (fun x => x ≠ []) wcomps by simp]
  rw [filter_ne_nil_of_plain wcomps (fun p hp => (hplain p hp).1)]
  rw [commonPrefixLen_self, Nat.sub_self]
  simp [List.drop_length]

theorem relpathL_under (cwd ws : Chars) (wcomps rcomps : List Chars)
    (hws : ws = '/' :: joinSlash wcomps) (hgood : GoodWS ws)
    (hwne : wcomps ≠ []) (hwplain : ∀ p ∈ wcomps, PlainComp p)
    (hrne : rcomps ≠ []) (hrplain : ∀ p ∈ rcomps, PlainComp p) :
    relpathL cwd ('/' :: joinSlash (wcomps ++ rcomps)) ws = joinSlash rcomps := by
  have hallne : wcomps ++ rcomps ≠ [] := by simp [hwne]
  have hallplain : ∀ p ∈ wcomps ++ rcomps, PlainComp p := by
    intro p hp
    rcases List.mem_append.mp hp with hp | hp
    · exact hwplain p hp
    · exact hrplain p hp
  have habs1 : abspathL cwd ('/' :: joinSlash (wcomps ++ rcomps)) =
      '/' :: joinSlash (wcomps ++ rcomps) := by
    rw [abspathL_of_abs _ _ (by rw [isabsL_cons]; simp)]
    exact normpathL_plain_fixed _ hallne hallplain
  have habs2 : abspathL cwd ws = ws := abspathL_goodWS cwd ws hgood
  have hsplit1 : splitSlash ('/' :: joinSlash (wcomps ++ rcomps)) =
      [] :: (wcomps ++ rcomps) :=
    splitSlash_abs _ hallne (fun p hp => (hallplain p hp).2.2.2)
  have hsplit2 : splitSlash ws = [] :: wcomps := by
    rw [hws]
    exact splitSlash_abs wcomps hwne (fun p hp => (hwplain p hp).2.2.2)
  simp only [relpathL, habs1, habs2, hsplit1, hsplit2]
  rw [show List.filter (fun x => x ≠ []) ([] :: (wcomps ++ rcomps)) =
      List.filter (fun x => x ≠ []) (wcomps ++ rcomps) by simp]
  rw [show List.filter (fun x => x ≠ []) ([] :: wcomps) =
      List.filter (fun x => x ≠ []) wcomps by simp]
  rw [filter_ne_nil_of_plain _ (fun p hp => (hallplain p hp).1)]
  rw [filter_ne_nil_of_plain wcomps (fun p hp => (hwplain p hp).1)]
  rw [commonPrefixLen_self_append, Nat.sub_self, List.drop_left]
  rw [if_neg (by simp [hrne])]
  simp

theorem to_posixL_no_bs (l : Chars) : '\\' ∉ to_posixL l := by
  intro h
  rcases List.mem_map.mp h with ⟨a, _, ha⟩
  by_cases hab : a = '\\' <;> simp [hab] at ha

theorem to_posixL_eq_self (l : Chars) (h : '\\' ∉ l) : to_posixL l = l := by
  have : ∀ a ∈ l, (if a = '\\' then '/' else a) = a := by
    intro a ha
    rw [if_neg (fun hab => h (by rw [← hab]; exact ha))]
  calc to_posixL l = l.map id := List.map_congr_left this
    _ = l := List.map_id l

theorem goodWS_ne_nil (ws : Chars) (h : GoodWS ws) : ws ≠ [] := by
  obtain ⟨wcomps, _, _, _, hws⟩ := GoodWS_decomp ws h
  simp [hws]

theorem pjoinL_goodWS (ws b : Chars) (hgood : GoodWS ws) (hb : isabsL b = false) :
    pjoinL ws b = ws ++ '/' :: b := by
  unfold pjoinL
  rw [if_neg (by simp [hb]), if_neg ?_]
  push_neg
  exact ⟨goodWS_ne_nil ws hgood, goodWS_getLast ws hgood⟩

theorem normalize_abs_path_eq (cwd ws path : Chars) (hgood : GoodWS ws) :
    (if isabsL (to_posixL path) then normpathL (to_posixL path)
     else normpathL (pjoinL ws (to_posixL path)))
    = abspathL cwd (pjoinL ws (to_posixL path)) := by
  by_cases habs : isabsL (to_posixL path) = true
  · rw [if_pos habs]
    rw [show pjoinL ws (to_posixL path) = to_posixL path by unfold pjoinL; rw [if_pos habs]]
    rw [abspathL_of_abs cwd _ habs]
  · rw [if_neg (by simp_all)]
    rw [pjoinL_goodWS ws _ hgood (by simp_all)]
    obtain ⟨wcomps, _, _, _, hws⟩ := GoodWS_decomp ws hgood
    rw [abspathL_of_abs cwd _ (by rw [hws]; simp [isabsL])]

/-- `normalize_path` in terms of the absolute realization of the input under
the workspace root. -/
theorem normalize_pathL_via_realize (cwd ws path : Chars) (hgood : GoodWS ws) :
    normalize_pathL cwd ws path =
      (if (ws ++ ['/']).isPrefixOf (abspathL cwd (pjoinL ws (to_posixL path))) ∨
          abspathL cwd (pjoinL ws (to_posixL path)) = ws then
        Except.ok (to_posixL (relpathL cwd (abspathL cwd (pjoinL ws (to_posixL path))) ws))
      else Except.error path) := by
  simp only [normalize_pathL]
  rw [normalize_abs_path_eq cwd ws path hgood, abspathL_goodWS cwd ws hgood]

theorem confined_decomp (wcomps acomps : List Chars) (rest : Chars)
    (hwne : wcomps ≠ []) (hwsl : ∀ p ∈ wcomps, '/' ∉ p)
    (haplain : ∀ p ∈ acomps, PlainComp p)
    (heq : ('/' : Char) :: joinSlash acomps = ('/' :: joinSlash wcomps) ++ '/' :: rest) :
    ∃ rcomps, rcomps ≠ [] ∧ (∀ p ∈ rcomps, PlainComp p) ∧
      acomps = wcomps ++ rcomps ∧ rest = joinSlash rcomps := by
  have heq2 : joinSlash acomps = joinSlash wcomps ++ '/' :: rest := by
    have h := heq
    simp only [List.cons_append, List.cons.injEq, true_and] at h
    exact h
  have hane : acomps ≠ [] := by
    intro h
    subst h
    simp [joinSlash] at heq2
  have hsplit : acomps = wcomps ++ splitSlash rest := by
    have h1 : splitSlash (joinSlash acomps) = acomps :=
      splitSlash_joinSlash acomps hane (fun p hp => (haplain p hp).2.2.2)
    rw [heq2, splitSlash_append_slash, splitSlash_joinSlash wcomps hwne hwsl] at h1
    exact h1.symm
  refine ⟨splitSlash rest, splitSlash_ne_nil rest, ?_, hsplit, (joinSlash_splitSlash rest).symm⟩
  intro p hp
  exact haplain p (hsplit ▸ List.mem_append_right _ hp)

theorem normpathL_plain_dot (wcomps : List Chars) (hwne : wcomps ≠ [])
    (hwplain : ∀ p ∈ wcomps, PlainComp p) :
    normpathL ('/' :: joinSlash (wcomps ++ [['.']])) = '/' :: joinSlash wcomps := by
  have hplainish : ∀ p ∈ wcomps ++ [['.']], p ≠ [] ∧ '/' ∉ p := by
    intro p hp
    rcases List.mem_append.mp hp with hp | hp
    · exact ⟨(hwplain p hp).1, (hwplain p hp).2.2.2⟩
    · simp at hp
      subst hp
      refine ⟨by simp, by simp⟩
  have hk : initialSlashes ('/' :: joinSlash (wcomps ++ [['.']])) = 1 :=
    initialSlashes_plainish _ (by simp) hplainish
  have hsplit : splitSlash ('/' :: joinSlash (wcomps ++ [['.']])) =
      [] :: (wcomps ++ [['.']]) :=
    splitSlash_abs _ (by simp) (fun p hp => (hplainish p hp).2)
  have hcomp : normComps ((1 : Nat) != 0) [] ([] :: (wcomps ++ [['.']])) = wcomps := by
    rw [show normComps ((1 : Nat) != 0) [] ([] :: (wcomps ++ [['.']])) =
        normComps true [] (wcomps ++ [['.']]) from rfl]
    rw [normComps_append, normComps_plain_id true wcomps [] hwplain]
    rfl
  simp only [normpathL]
  rw [if_neg (by simp), hk, hsplit, hcomp]
  simp

theorem realize_dot (cwd ws : Chars) (hgood : GoodWS ws) :
    abspathL cwd (pjoinL ws ['.']) = ws := by
  obtain ⟨wcomps, hwne, hwplain, _, hws⟩ := GoodWS_decomp ws hgood
  rw [pjoinL_goodWS ws ['.'] hgood (by rw [isabsL_cons]; simp)]
  have hX : ws ++ '/' :: ['.'] = '/' :: joinSlash (wcomps ++ [['.']]) := by
    rw [hws, joinSlash_append wcomps [['.']] hwne (by simp)]
    rfl
  rw [hX, abspathL_of_abs cwd _ (by rw [isabsL_cons]; simp),
    normpathL_plain_dot wcomps hwne hwplain, hws]

theorem realize_comps (cwd ws : Chars) (rcomps : List Chars) (hgood : GoodWS ws)
    (hrne : rcomps ≠ []) (hrplain : ∀ p ∈ rcomps, PlainComp p) :
    abspathL cwd (pjoinL ws (joinSlash rcomps)) = ws ++ '/' :: joinSlash rcomps := by
  obtain ⟨wcomps, hwne, hwplain, _, hws⟩ := GoodWS_decomp ws hgood
  rw [pjoinL_goodWS ws _ hgood (isabsL_joinSlash_plain rcomps hrne hrplain)]
  have hallplain : ∀ p ∈ wcomps ++ rcomps, PlainComp p := by
    intro p hp
    rcases List.mem_append.mp hp with hp | hp
    · exact hwplain p hp
    · exact hrplain p hp
  have hX : ws ++ '/' :: joinSlash rcomps = '/' :: joinSlash (wcomps ++ rcomps) := by
    rw [hws, joinSlash_append wcomps rcomps hwne hrne]
    rfl
  rw [hX, abspathL_of_abs cwd _ (by rw [isabsL_cons]; simp),
    normpathL_plain_fixed _ (by simp [hwne]) hallplain]

theorem initialSlashes_le_two (l : Chars) : initialSlashes l ≤ 2 := by
  unfold initialSlashes
  split
  · split <;> omega
  · omega

theorem no_bs_joinSlash (rcomps : List Chars) (h : ∀ x ∈ rcomps, '\\' ∉ x) :
    '\\' ∉ joinSlash rcomps := by
  intro hmem
  rcases chars_joinSlash rcomps '\\' hmem with hc | ⟨q, hq, hcq⟩
  · exact absurd hc (by decide)
  · exact h q hq hcq

/-- Every accepted input normalizes to `.` or to a slash-join of plain,
backslash-free components. -/
theorem normalize_ok_cases (cwd ws path p : Chars) (hgood : GoodWS ws)
    (h : normalize_pathL cwd ws path = .ok p) :
    p = ['.'] ∨ ∃ rcomps, rcomps ≠ [] ∧ (∀ x ∈ rcomps, PlainComp x) ∧
      (∀ x ∈ rcomps, '\\' ∉ x) ∧ p = joinSlash rcomps := by
  obtain ⟨wcomps, hwne, hwplain, hwbs, hws⟩ := GoodWS_decomp ws hgood
  rw [normalize_pathL_via_realize cwd ws path hgood] at h
  by_cases hcond : ((ws ++ ['/']).isPrefixOf (abspathL cwd (pjoinL ws (to_posixL path))) = true ∨
      abspathL cwd (pjoinL ws (to_posixL path)) = ws)
  swap
  · rw [if_neg hcond] at h
    exact absurd h (by simp)
  rw [if_pos hcond] at h
  have hp : p = to_posixL (relpathL cwd (abspathL cwd (pjoinL ws (to_posixL path))) ws) :=
    (Except.ok.inj h).symm
  -- the joined input is absolute and backslash-free
  have hXabs : isabsL (pjoinL ws (to_posixL path)) = true := by
    by_cases habs : isabsL (to_posixL path) = true
    · rw [show pjoinL ws (to_posixL path) = to_posixL path by
        unfold pjoinL; rw [if_pos habs]]
      exact habs
    · rw [pjoinL_goodWS ws _ hgood (by simp_all), hws]
      simp [isabsL]
  have hXbs : '\\' ∉ pjoinL ws (to_posixL path) := by
    intro hmem
    unfold pjoinL at hmem
    split at hmem
    · exact to_posixL_no_bs path hmem
    · split at hmem
      · rcases List.mem_append.mp hmem with hm | hm
        · exact hgood.2.2.2 hm
        · exact to_posixL_no_bs path hm
      · rcases List.mem_append.mp hmem with hm | hm
        · exact hgood.2.2.2 hm
        · rcases List.mem_cons.mp hm with hm | hm
          · exact absurd hm (by decide)
          · exact to_posixL_no_bs path hm
  have hReq : abspathL cwd (pjoinL ws (to_posixL path)) =
      normpathL (pjoinL ws (to_posixL path)) := abspathL_of_abs cwd _ hXabs
  obtain ⟨acomps, haplain, hachars, hashape, hk1⟩ :=
    normpathL_abs_shape (pjoinL ws (to_posixL path)) hXabs
  have habs : ∀ x ∈ acomps, '\\' ∉ x := by
    intro x hx hbs
    exact hXbs (hachars x hx '\\' hbs)
  rcases hcond with hpre | heq
  · -- the realization extends the workspace root
    right
    obtain ⟨rest, hrest⟩ := (List.isPrefixOf_iff_prefix).mp hpre
    -- the leading-slash count must be 1, because the second character of the
    -- realization is the head of the first workspace component
    obtain ⟨w0, wrest, hw0⟩ : ∃ w0 wrest, wcomps = w0 :: wrest := by
      cases wcomps with
      | nil => exact absurd rfl hwne
      | cons w0 wrest => exact ⟨w0, wrest, rfl⟩
    obtain ⟨c0, w0', hc0⟩ : ∃ c0 w0', w0 = c0 :: w0' := by
      cases w0 with
      | nil => exact absurd rfl (hwplain _ (hw0 ▸ List.mem_cons_self _ _)).1
      | cons c0 w0' => exact ⟨c0, w0', rfl⟩
    have hc0s : c0 ≠ '/' := fun hcc =>
      (hwplain _ (hw0 ▸ List.mem_cons_self _ _)).2.2.2 (hcc ▸ (hc0 ▸ List.mem_cons_self _ _))
    obtain ⟨tail, htail⟩ := joinSlash_head wcomps w0 wrest hw0 c0 w0' hc0
    have hRchars : abspathL cwd (pjoinL ws (to_posixL path)) = ws ++ '/' :: rest := by
      rw [← hrest]; simp
    have hk : initialSlashes (pjoinL ws (to_posixL path)) = 1 := by
      have h2 := initialSlashes_le_two (pjoinL ws (to_posixL path))
      rcases Nat.lt_or_ge (initialSlashes (pjoinL ws (to_posixL path))) 2 with hlt | hge
      · omega
      · exfalso
        have hk2 : initialSlashes (pjoinL ws (to_posixL path)) = 2 := by omega
        rw [hReq, hashape, hk2] at hRchars
        rw [hws, htail] at hRchars
        simp at hRchars
        exact hc0s hRchars.1.symm
    have hRdecomp : ('/' : Char) :: joinSlash acomps = ('/' :: joinSlash wcomps) ++ '/' :: rest := by
      have := hRchars
      rw [hReq, hashape, hk] at this
      rw [hws] at this
      simpa using this
    obtain ⟨rcomps, hrne, hrplain, hacomps, hrest2⟩ :=
      confined_decomp wcomps acomps rest hwne
        (fun q hq => (hwplain q hq).2.2.2) haplain hRdecomp
    have hrbs : ∀ x ∈ rcomps, '\\' ∉ x := by
      intro x hx
      exact habs x (hacomps ▸ List.mem_append_right _ hx)
    refine ⟨rcomps, hrne, hrplain, hrbs, ?_⟩
    rw [hp, hReq, hashape, hk]
    have hRplain : List.replicate 1 '/' ++ joinSlash acomps = '/' :: joinSlash (wcomps ++ rcomps) := by
      rw [hacomps]; rfl
    rw [hRplain, relpathL_under cwd ws wcomps rcomps hws hgood hwne hwplain hrne hrplain]
    exact to_posixL_eq_self _ (no_bs_joinSlash rcomps hrbs)
  · -- the realization is the workspace root itself
    left
    rw [hp, heq, relpathL_same cwd ws hgood]
    rfl

theorem normalize_of_dot (cwd ws : Chars) (hgood : GoodWS ws) :
    normalize_pathL cwd ws ['.'] = .ok ['.'] := by
  rw [normalize_pathL_via_realize cwd ws ['.'] hgood]
  rw [show to_posixL ['.'] = ['.'] from rfl, realize_dot cwd ws hgood]
  rw [if_pos (Or.inr rfl), relpathL_same cwd ws hgood]
  rfl

theorem normalize_of_comps (cwd ws : Chars) (rcomps : List Chars) (hgood : GoodWS ws)
    (hrne : rcomps ≠ []) (hrplain : ∀ x ∈ rcomps, PlainComp x)
    (hrbs : ∀ x ∈ rcomps, '\\' ∉ x) :
    normalize_pathL cwd ws (joinSlash rcomps) = .ok (joinSlash rcomps) := by
  obtain ⟨wcomps, hwne, hwplain, _, hws⟩ := GoodWS_decomp ws hgood
  rw [normalize_pathL_via_realize cwd ws (joinSlash rcomps) hgood]
  rw [to_posixL_eq_self _ (no_bs_joinSlash rcomps hrbs)]
  rw [realize_comps cwd ws rcomps hgood hrne hrplain]
  rw [if_pos (Or.inl ?hpre)]
  case hpre =>
    apply List.isPrefixOf_iff_prefix.mpr
    exact ⟨joinSlash rcomps, by simp⟩
  have hX : ws ++ '/' :: joinSlash rcomps = '/' :: joinSlash (wcomps ++ rcomps) := by
    rw [hws, joinSlash_append wcomps rcomps hwne hrne]
    rfl
  rw [hX, relpathL_under cwd ws wcomps rcomps hws hgood hwne hwplain hrne hrplain]
  rw [to_posixL_eq_self _ (no_bs_joinSlash rcomps hrbs)]

/-- C3: Path confinement.  For every input accepted by `normalize_path` the
returned workspace-relative POSIX path `p` realizes (absolutely, under the
workspace root — with no symlinks, `realpath` and `abspath` coincide) to a
path that begins with the canonical workspace root; every input whose
absolute realization escapes the root is rejected with the path-escape error,
and `tool_reserve` reports such an input in the `errors` list of the batch
result, grants nothing for it, and creates no reservation record for it. -/
theorem C3_path_confinement (cwd ws path : Chars) (hgood : GoodWS ws)
    (ph : Chars → Chars) (agent : String) (sIssue : Option String)
    (store : ResStore) (ttl : Nat) (reasonArg : Option String) (now : Nat) :
    (∀ p, normalize_pathL cwd ws path = .ok p →
      (ws ++ ['/']) <+: abspathL cwd (pjoinL ws p) ∨ abspathL cwd (pjoinL ws p) = ws)
    ∧ (¬ ((ws ++ ['/']).isPrefixOf (abspathL cwd (pjoinL ws (to_posixL path))) = true ∨
          abspathL cwd (pjoinL ws (to_posixL path)) = ws) →
        normalize_pathL cwd ws path = .error path)
    ∧ (∀ e, normalize_pathL cwd ws path = .error e →
        tool_reserve ph cwd ws agent sIssue store [path] ttl reasonArg now =
          (.ok ⟨[], [], [path], none⟩, store, [])) := by
  refine ⟨?_, ?_, ?_⟩
  · intro p hok
    rcases normalize_ok_cases cwd ws path p hgood hok with hdot | ⟨rcomps, hrne, hrplain, hrbs, hq⟩
    · right
      rw [hdot]
      exact realize_dot cwd ws hgood
    · left
      rw [hq, realize_comps cwd ws rcomps hgood hrne hrplain]
      exact ⟨joinSlash rcomps, by simp⟩
  · intro hesc
    rw [normalize_pathL_via_realize cwd ws path hgood, if_neg hesc]
  · intro e herr
    simp only [tool_reserve, reserveLoop, herr]
    rw [if_neg (by simp)]
    rfl

/-- C3 witness: `../x` escapes `/ws`, is rejected, lands in the `errors`
list of a singleton `reserve` batch, is granted nothing and writes no
record. -/
theorem C3_path_confinement_witness :
    normalize_pathL "/".data "/ws".data "../x".data = .error "../x".data ∧
    tool_reserve (fun k => k) "/".data "/ws".data "A" none [] ["../x".data] 600 none 0 =
      (.ok ⟨[], [], ["../x".data], none⟩, [], []) := by
  have h := C3_path_confinement "/".data "/ws".data "../x".data (by decide)
    (fun k => k) "A" none [] 600 none 0
  have herr := h.2.1 (by decide)
  exact ⟨herr, h.2.2 "../x".data herr⟩

/-- C10: path normalization is idempotent — normalizing an accepted input's
result again succeeds and returns it unchanged. -/
theorem C10_normalize_path_idempotent (cwd ws path q : Chars) (hgood : GoodWS ws)
    (h : normalize_pathL cwd ws path = .ok q) :
    normalize_pathL cwd ws q = .ok q := by
  rcases normalize_ok_cases cwd ws path q hgood h with hdot | ⟨rcomps, hrne, hrplain, hrbs, hq⟩
  · rw [hdot]
    exact normalize_of_dot cwd ws hgood
  · rw [hq]
    exact normalize_of_comps cwd ws rcomps hgood hrne hrplain hrbs

/-- C10 witness: `a//b/./c/../d` normalizes to `a/b/d` under `/ws`, and the
result re-normalizes to itself. -/
theorem C10_normalize_path_idempotent_witness :
    normalize_pathL "/".data "/ws".data "a//b/./c/../d".data = .ok "a/b/d".data ∧
    normalize_pathL "/".data "/ws".data "a/b/d".data = .ok "a/b/d".data := by
  have h1 : normalize_pathL "/".data "/ws".data "a//b/./c/../d".data = .ok "a/b/d".data := rfl
  exact ⟨h1, C10_normalize_path_idempotent "/".data "/ws".data _ _ (by decide) h1⟩

/-! ## Reservation-engine theorems (C2, C7). -/

theorem getRes_filter_keyne (store : ResStore) (key k : Chars) (h : k ≠ key) :
    getRes (store.filter (fun kv => kv.1 ≠ key)) k = getRes store k := by
  induction store with
  | nil => rfl
  | cons kv rest ih =>
    by_cases hk : kv.1 = key
    · rw [show List.filter (fun kv => decide (kv.1 ≠ key)) (kv :: rest) =
          List.filter (fun kv => decide (kv.1 ≠ key)) rest by simp [List.filter, hk]]
      rw [ih]
      have hvk : ¬ kv.1 = k := fun he => h (by rw [← he, hk])
      show _ = (if kv.1 = k then some kv.2 else getRes rest k)
      rw [if_neg hvk]
    · rw [show List.filter (fun kv => decide (kv.1 ≠ key)) (kv :: rest) =
          kv :: List.filter (fun kv => decide (kv.1 ≠ key)) rest by simp [List.filter, hk]]
      show (if kv.1 = k then some kv.2 else _) = (if kv.1 = k then some kv.2 else getRes rest k)
      by_cases hvk : kv.1 = k
      · rw [if_pos hvk, if_pos hvk]
      · rw [if_neg hvk, if_neg hvk, ih]

theorem getRes_setRes_self (store : ResStore) (key : Chars) (r : Reservation) :
    getRes (setRes store key r) key = some r := by
  simp [setRes, getRes]

theorem getRes_setRes_ne (store : ResStore) (key : Chars) (r : Reservation)
    (k : Chars) (h : k ≠ key) :
    getRes (setRes store key r) k = getRes store k := by
  show (if key = k then some r else _) = _
  rw [if_neg (fun he => h he.symm), getRes_filter_keyne store key k h]

/-- C2: Reservation mutual exclusion.  With hash-consistent directory
contents there is at most one non-expired record per path; while agent `A`
holds a live record for `p`, any reserve of `p` by `B ≠ A` reports a conflict
naming `A` and leaves the directory untouched (also through `tool_reserve`),
`A`'s own reserve silently overwrites (refreshes) the record, engine writes
preserve hash-consistency, and a non-holder's `release` removes nothing. -/
theorem C2_reservation_mutual_exclusion
    (ph : Chars → Chars) (store : ResStore) (now : Nat)
    (A B : String) (hAB : B ≠ A) (p : Chars) (resA : Reservation)
    (hheld : getRes store (ph p) = some resA) (hA : resA.agent = A)
    (hlive : now < resA.expires) :
    (WellFormedStore ph store →
      ∀ k1 k2 r1 r2, getRes store k1 = some r1 → getRes store k2 = some r2 →
        r1.path = r2.path → k1 = k2 ∧ r1 = r2)
    ∧ (∀ (agent : String) (path : Chars) (resv : Reservation),
        WellFormedStore ph store → resv.path = path →
        WellFormedStore ph (try_atomic_reserve ph store now agent path resv).2.2)
    ∧ (∀ resB, try_atomic_reserve ph store now B p resB = (false, some resA, store))
    ∧ (∀ (cwd ws rawp : Chars) (sIssue : Option String) (ttl : Nat)
        (reasonArg : Option String),
        normalize_pathL cwd ws rawp = .ok p →
        tool_reserve ph cwd ws B sIssue store [rawp] ttl reasonArg now =
          (.ok ⟨[], [⟨p, A, resA.reason, resA.expires⟩], [], none⟩, store, []))
    ∧ (∀ resA2, try_atomic_reserve ph store now A p resA2 =
        (true, none, setRes store (ph p) resA2))
    ∧ (∀ (cwd ws rawp : Chars) (sessRes : List Chars),
        releaseNorm cwd ws rawp = p →
        (tool_release ph cwd ws B sessRes store [rawp]).2.1 = store ∧
        (tool_release ph cwd ws B sessRes store [rawp]).1 = []) := by
  have hconflictB : ∀ resB, try_atomic_reserve ph store now B p resB = (false, some resA, store) := by
    intro resB
    simp only [try_atomic_reserve, hheld]
    rw [if_pos ⟨hlive, by rw [hA]; exact Ne.symm hAB⟩]
  refine ⟨?_, ?_, hconflictB, ?_, ?_, ?_⟩
  · intro hwf k1 k2 r1 r2 h1 h2 hpath
    have hk1 := hwf k1 r1 h1
    have hk2 := hwf k2 r2 h2
    have hkk : k1 = k2 := by rw [hk1, hk2, hpath]
    refine ⟨hkk, ?_⟩
    rw [hkk] at h1
    rw [h1] at h2
    exact Option.some.inj h2
  · intro agent path resv hwf hresv
    have hcases : (try_atomic_reserve ph store now agent path resv).2.2 = store ∨
        (try_atomic_reserve ph store now agent path resv).2.2 = setRes store (ph path) resv := by
      simp only [try_atomic_reserve]
      cases getRes store (ph path) with
      | none => right; rfl
      | some existing =>
        by_cases hcnd : now < existing.expires ∧ existing.agent ≠ agent
        · left; simp only [if_pos hcnd]
        · right; simp only [if_neg hcnd]
    rcases hcases with hc | hc
    · rw [hc]; exact hwf
    · rw [hc]
      intro k r hk
      by_cases hkey : k = ph path
      · subst hkey
        rw [getRes_setRes_self] at hk
        rw [← Option.some.inj hk, hresv]
      · rw [getRes_setRes_ne _ _ _ _ hkey] at hk
        exact hwf k r hk
  · intro cwd ws rawp sIssue ttl reasonArg hnorm
    simp only [tool_reserve, reserveLoop, hnorm, hconflictB, hA]
    rw [if_neg (by simp)]
    simp
  · intro resA2
    simp only [try_atomic_reserve, hheld]
    rw [if_neg (by rw [hA]; simp)]
  · intro cwd ws rawp sessRes hnormr
    constructor
    · show (releaseLoop ph cwd ws B [rawp] store).2 = store
      simp only [releaseLoop, hnormr, hheld]
      rw [if_neg (by rw [hA]; exact Ne.symm hAB)]
    · show (releaseLoop ph cwd ws B [rawp] store).1 = []
      simp only [releaseLoop, hnormr, hheld]
      rw [if_neg (by rw [hA]; exact Ne.symm hAB)]

/-- C2 witness: with `A` holding a live record for `x/y`, agent `B`'s reserve
conflicts naming `A` and changes nothing, `A`'s own reserve refreshes the
record, and `B`'s release removes nothing. -/
theorem C2_reservation_mutual_exclusion_witness :
    (try_atomic_reserve (fun k => k) [("x/y".data, ⟨"x/y".data, "A", "work", 0, 100⟩)] 50
        "B" "x/y".data ⟨"x/y".data, "B", "mine", 50, 650⟩ =
      (false, some ⟨"x/y".data, "A", "work", 0, 100⟩,
        [("x/y".data, ⟨"x/y".data, "A", "work", 0, 100⟩)]))
    ∧ (tool_reserve (fun k => k) "/".data "/ws".data "B" none
        [("x/y".data, ⟨"x/y".data, "A", "work", 0, 100⟩)] ["x/y".data] 600 none 50 =
      (.ok ⟨[], [⟨"x/y".data, "A", "work", 100⟩], [], none⟩,
        [("x/y".data, ⟨"x/y".data, "A", "work", 0, 100⟩)], []))
    ∧ (try_atomic_reserve (fun k => k) [("x/y".data, ⟨"x/y".data, "A", "work", 0, 100⟩)] 50
        "A" "x/y".data ⟨"x/y".data, "A", "more", 50, 650⟩ =
      (true, none, setRes [("x/y".data, ⟨"x/y".data, "A", "work", 0, 100⟩)] "x/y".data
        ⟨"x/y".data, "A", "more", 50, 650⟩))
    ∧ (tool_release (fun k => k) "/".data "/ws".data "B" []
        [("x/y".data, ⟨"x/y".data, "A", "work", 0, 100⟩)]
        ["x/y".data]).2.1 = [("x/y".data, ⟨"x/y".data, "A", "work", 0, 100⟩)] := by
  have h := C2_reservation_mutual_exclusion (fun k => k)
    [("x/y".data, ⟨"x/y".data, "A", "work", 0, 100⟩)] 50 "A" "B" (by decide)
    "x/y".data ⟨"x/y".data, "A", "work", 0, 100⟩ rfl rfl (by decide)
  exact ⟨h.2.2.1 _, h.2.2.2.1 "/".data "/ws".data "x/y".data none 600 none rfl,
    h.2.2.2.2.1 _, (h.2.2.2.2.2 "/".data "/ws".data "x/y".data [] rfl).1⟩

/-- C7: Reservation TTL.  A record with `expires ≤ now` is treated as absent:
the reservations enumeration does not return it, and any agent's reserve of
its path succeeds by overwriting it rather than reporting a conflict. -/
theorem C7_reservation_ttl (ph : Chars → Chars) (store : ResStore) (now : Nat) :
    (∀ r ∈ (get_active_reservations store now).1, now < r.expires)
    ∧ (∀ (path : Chars) (ex : Reservation), getRes store (ph path) = some ex →
        ex.expires ≤ now →
        ∀ (agent : String) (resv : Reservation),
          try_atomic_reserve ph store now agent path resv =
            (true, none, setRes store (ph path) resv)) := by
  constructor
  · intro r hr
    simp only [get_active_reservations] at hr
    rcases List.mem_filterMap.mp hr with ⟨kv, _, hguard⟩
    by_cases hlt : now < kv.2.expires
    · rw [if_pos hlt] at hguard
      rw [← Option.some.inj hguard]
      exact hlt
    · rw [if_neg hlt] at hguard
      exact absurd hguard (by simp)
  · intro path ex hget hexp agent resv
    simp only [try_atomic_reserve, hget]
    rw [if_neg (by intro hc; exact absurd hc.1 (by omega))]

/-- C7 witness: a record expired at 30 is invisible at time 50 — it is not
enumerated and reserving its path succeeds by overwriting. -/
theorem C7_reservation_ttl_witness :
    (∀ r ∈ (get_active_reservations [("q".data, ⟨"q".data, "A", "old", 0, 30⟩)] 50).1,
      50 < r.expires)
    ∧ try_atomic_reserve (fun k => k) [("q".data, ⟨"q".data, "A", "old", 0, 30⟩)] 50
        "B" "q".data ⟨"q".data, "B", "new", 50, 650⟩ =
      (true, none, setRes [("q".data, ⟨"q".data, "A", "old", 0, 30⟩)] "q".data
        ⟨"q".data, "B", "new", 50, 650⟩) := by
  have h := C7_reservation_ttl (fun k => k) [("q".data, ⟨"q".data, "A", "old", 0, 30⟩)] 50
  exact ⟨h.1, h.2 "q".data ⟨"q".data, "A", "old", 0, 30⟩ rfl (by decide) "B" _⟩

/-! ## Atomic-publication theorems (C1). -/

theorem fsGet_filter_keyne (fs : FileSys) (key k : String) (h : k ≠ key) :
    fsGet (fs.filter (fun kv => kv.1 ≠ key)) k = fsGet fs k := by
  induction fs with
  | nil => rfl
  | cons kv rest ih =>
    by_cases hk : kv.1 = key
    · rw [show List.filter (fun kv => decide (kv.1 ≠ key)) (kv :: rest) =
          List.filter (fun kv => decide (kv.1 ≠ key)) rest by simp [List.filter, hk]]
      rw [ih]
      have hvk : ¬ kv.1 = k := fun he => h (by rw [← he, hk])
      show _ = (if kv.1 = k then some kv.2 else fsGet rest k)
      rw [if_neg hvk]
    · rw [show List.filter (fun kv => decide (kv.1 ≠ key)) (kv :: rest) =
          kv :: List.filter (fun kv => decide (kv.1 ≠ key)) rest by simp [List.filter, hk]]
      show (if kv.1 = k then some kv.2 else _) = (if kv.1 = k then some kv.2 else fsGet rest k)
      by_cases hvk : kv.1 = k
      · rw [if_pos hvk, if_pos hvk]
      · rw [if_neg hvk, if_neg hvk, ih]

theorem fsGet_fsSet_self (fs : FileSys) (n v : String) :
    fsGet (fsSet fs n v) n = some v := by
  simp [fsSet, fsGet]

theorem fsGet_fsSet_ne (fs : FileSys) (n v : String) (k : String) (h : k ≠ n) :
    fsGet (fsSet fs n v) k = fsGet fs k := by
  show (if n = k then some v else _) = _
  rw [if_neg (fun he => h he.symm), fsGet_filter_keyne fs n k h]

theorem fsGet_fsDel_ne (fs : FileSys) (n k : String) (h : k ≠ n) :
    fsGet (fsDel fs n) k = fsGet fs k :=
  fsGet_filter_keyne fs n k h

theorem applyOp_rename_some (fs : FileSys) (src dst v : String)
    (h : fsGet fs src = some v) :
    applyOp fs (.rename src dst) = fsSet (fsDel fs src) dst v := by
  simp [applyOp, h]

/-- Running operations that touch only `tmp` does not change any other name. -/
theorem runOps_tmp_only (tmp final : String) (hne : final ≠ tmp) (ops : List FsOp)
    (hops : ∀ op ∈ ops, op = .openTrunc tmp ∨ ∃ d, op = .writeChunk tmp d)
    (fs : FileSys) :
    fsGet (runOps fs ops) final = fsGet fs final := by
  induction ops generalizing fs with
  | nil => rfl
  | cons op rest ih =>
    have hstep : fsGet (applyOp fs op) final = fsGet fs final := by
      rcases hops op (List.mem_cons_self _ _) with hop | ⟨d, hop⟩
      · rw [hop]; exact fsGet_fsSet_ne fs tmp "" final hne
      · rw [hop]; exact fsGet_fsSet_ne fs tmp _ final hne
    calc fsGet (runOps (applyOp fs op) rest) final
        = fsGet (applyOp fs op) final :=
          ih (fun o ho => hops o (List.mem_cons_of_mem _ ho)) _
      _ = fsGet fs final := hstep

/-- Streaming chunks into `tmp` accumulates their concatenation. -/
theorem runOps_accumulate (tmp : String) (chunks : List String) (fs : FileSys)
    (s : String) (hs : fsGet fs tmp = some s) :
    fsGet (runOps fs (chunks.map (FsOp.writeChunk tmp))) tmp =
      some (s ++ concatChunks chunks) := by
  induction chunks generalizing fs s with
  | nil => simpa [runOps, concatChunks] using hs
  | cons c rest ih =>
    have hstep : fsGet (applyOp fs (FsOp.writeChunk tmp c)) tmp = some (s ++ c) := by
      show fsGet (fsSet fs tmp (((fsGet fs tmp).getD "") ++ c)) tmp = some (s ++ c)
      rw [fsGet_fsSet_self, hs]
      rfl
    calc fsGet (runOps (applyOp fs (FsOp.writeChunk tmp c)) (rest.map (FsOp.writeChunk tmp))) tmp
        = some ((s ++ c) ++ concatChunks rest) := ih _ _ hstep
      _ = some (s ++ concatChunks (c :: rest)) := by
          simp [concatChunks, String.append_assoc]

/-- C1: Durable-record publication.  The claim — that reservation files,
mailbox message files and team registry entries are all published through the
write-to-temporary-then-rename primitive — fails for the mailbox and the
registry: `send_msg` and `register_agent` open the final path directly
(`open(p, "w")`) and stream the JSON into it, so a crash after the open
leaves a visible empty (or partial) file under the final name.  This closed
counterexample exhibits the torn state after the first of three events. -/
theorem C1_counterexample :
    ¬ publishes_atomically [] (send_msg_ops "m.json" ["ab", "cd"]) "m.json" "abcd" := by
  intro h
  have h1 := h.1 1 (by decide)
  revert h1
  decide

/-- C1 (amended): only reservation files are published atomically — the
temp-write-rename sequence of `try_atomic_reserve` leaves the final name
untouched under any crash prefix and a reader sees only the old or the
complete new contents — while mailbox message files (`send_msg`) and team
registry entries (`register_agent`) are written directly to the final path,
where a crash right after the open leaves a visible file that is neither
absent nor complete. -/
theorem C1_only_reservations_atomic (tmp final : String) (hne : tmp ≠ final)
    (chunks : List String) (fs0 : FileSys) (hfresh : fsGet fs0 tmp = none) :
    publishes_atomically fs0 (try_atomic_reserve_ops tmp final chunks) final
      (concatChunks chunks)
    ∧ (∀ (name : String) (fsm : FileSys), fsGet fsm name = none → chunks ≠ [] →
        ¬ publishes_atomically fsm (send_msg_ops name chunks) name (concatChunks chunks)
        ∧ ¬ publishes_atomically fsm (register_agent_ops name chunks) name (concatChunks chunks)) := by
  have hfinne : final ≠ tmp := fun he => hne he.symm
  have hpre : ∀ op ∈ FsOp.openTrunc tmp :: chunks.map (FsOp.writeChunk tmp),
      op = FsOp.openTrunc tmp ∨ ∃ d, op = FsOp.writeChunk tmp d := by
    intro op hop
    rcases List.mem_cons.mp hop with hop | hop
    · exact Or.inl hop
    · rcases List.mem_map.mp hop with ⟨d, _, hd⟩
      exact Or.inr ⟨d, hd.symm⟩
  have hprelen : (FsOp.openTrunc tmp :: chunks.map (FsOp.writeChunk tmp)).length =
      chunks.length + 1 := by simp
  have hopslen : (try_atomic_reserve_ops tmp final chunks).length = chunks.length + 2 := by
    simp [try_atomic_reserve_ops]
  have htake : ∀ k, k ≤ chunks.length + 1 →
      (try_atomic_reserve_ops tmp final chunks).take k =
        (FsOp.openTrunc tmp :: chunks.map (FsOp.writeChunk tmp)).take k := by
    intro k hk
    unfold try_atomic_reserve_ops
    rw [List.take_append_eq_append_take]
    rw [show List.take (k - (FsOp.openTrunc tmp :: chunks.map (FsOp.writeChunk tmp)).length)
        [FsOp.rename tmp final] = [] from by
      rw [hprelen]
      rw [show k - (chunks.length + 1) = 0 from by omega]
      rfl]
    simp
  have hcrash : ∀ k, k < chunks.length + 2 →
      fsGet (runOps fs0 ((try_atomic_reserve_ops tmp final chunks).take k)) final =
        fsGet fs0 final := by
    intro k hk
    rw [htake k (by omega)]
    refine runOps_tmp_only tmp final hfinne _ ?_ fs0
    intro op hop
    exact hpre op (List.take_subset _ _ hop)
  have hfull : fsGet (runOps fs0 (try_atomic_reserve_ops tmp final chunks)) final =
      some (concatChunks chunks) := by
    unfold try_atomic_reserve_ops
    rw [runOps, List.foldl_append]
    have htmp : fsGet ((FsOp.openTrunc tmp :: chunks.map (FsOp.writeChunk tmp)).foldl applyOp fs0) tmp =
        some (concatChunks chunks) := by
      show fsGet ((chunks.map (FsOp.writeChunk tmp)).foldl applyOp (applyOp fs0 (FsOp.openTrunc tmp))) tmp =
        some (concatChunks chunks)
      have hopen : fsGet (applyOp fs0 (FsOp.openTrunc tmp)) tmp = some "" :=
        fsGet_fsSet_self fs0 tmp ""
      have := runOps_accumulate tmp chunks (applyOp fs0 (FsOp.openTrunc tmp)) "" hopen
      simpa [runOps] using this
    simp only [List.foldl_cons, List.foldl_nil]
    simp only [List.foldl_cons] at htmp
    rw [applyOp_rename_some _ tmp final _ htmp]
    exact fsGet_fsSet_self _ final _
  have hdirect : ∀ (name : String) (fsm : FileSys), fsGet fsm name = none → chunks ≠ [] →
      ¬ publishes_atomically fsm (FsOp.openTrunc name :: chunks.map (FsOp.writeChunk name))
        name (concatChunks chunks) := by
    intro name fsm hnone hchne hpub
    have hlen : 1 < (FsOp.openTrunc name :: chunks.map (FsOp.writeChunk name)).length := by
      cases chunks with
      | nil => exact absurd rfl hchne
      | cons c rest => simp
    have h1 := hpub.1 1 hlen
    rw [show (FsOp.openTrunc name :: chunks.map (FsOp.writeChunk name)).take 1 =
        [FsOp.openTrunc name] from by
      cases chunks with
      | nil => exact absurd rfl hchne
      | cons c rest => rfl] at h1
    rw [show runOps fsm [FsOp.openTrunc name] = fsSet fsm name "" from rfl,
      fsGet_fsSet_self, hnone] at h1
    exact Option.noConfusion h1
  refine ⟨⟨fun k hk => by rw [hopslen] at hk; exact hcrash k hk, hfull, ?_⟩, ?_⟩
  · intro k hk
    rw [hopslen] at hk
    rcases Nat.lt_or_ge k (chunks.length + 2) with hlt | hge
    · exact Or.inl (hcrash k hlt)
    · have hkeq : k = chunks.length + 2 := by omega
      subst hkeq
      right
      rw [show (try_atomic_reserve_ops tmp final chunks).take (chunks.length + 2) =
          try_atomic_reserve_ops tmp final chunks from by
        apply List.take_of_length_le
        rw [hopslen]]
      exact hfull
  · intro name fsm hnone hchne
    exact ⟨hdirect name fsm hnone hchne, hdirect name fsm hnone hchne⟩

/-- C1 witness: a two-chunk reservation record published over `r.json` via a
temp sibling is never seen torn, and a two-chunk mailbox write is. -/
theorem C1_only_reservations_atomic_witness :
    publishes_atomically [] (try_atomic_reserve_ops "t.tmp" "r.json" ["ab", "cd"]) "r.json" "abcd"
    ∧ ¬ publishes_atomically [] (send_msg_ops "m.json" ["ab", "cd"]) "m.json" "abcd" := by
  have h := C1_only_reservations_atomic "t.tmp" "r.json" (by decide) ["ab", "cd"] [] rfl
  exact ⟨by simpa [concatChunks] using h.1,
    by simpa [concatChunks] using (h.2 "m.json" [] rfl (by decide)).1⟩

/-! ## Transport theorems (C4). -/

/-- C4 counterexample: transport equivalence fails.  `ready` is in the stream
dispatcher's catalog but absent from the HTTP transport's `TOOL_FUNCTIONS`
table, so a `tools/call` for it dispatches on the stream and errors over
HTTP; and the input coercion runs only on the HTTP side — the stream
transport hands `{"ttl": "600"}` to the handler verbatim while HTTP rewrites
it to the integer 600, and with the float parse behaving as Python's does
on `"1e3"` (`float("1e3") = 1000.0`) HTTP rewrites `{"ttl": "1e3"}` to 1000.
The digit path consults neither parse, so elsewhere they are instantiated
trivially. -/
theorem C4_counterexample :
    ("ready" ∈ TOOLS_names ∧ "ready" ∉ TOOL_FUNCTIONS_names)
    ∧ stream_tools_call "ready" [] = .handler "ready" []
    ∧ http_tools_call (fun _ => .err) (fun _ => .err) "ready" [] = .unknownTool
    ∧ stream_tools_call "reserve" [("ttl", .str "600")] =
        .handler "reserve" [("ttl", .str "600")]
    ∧ http_tools_call (fun _ => .err) (fun _ => .err) "reserve"
        [("ttl", .str "600")] = .handler "reserve" [("ttl", .int 600)]
    ∧ http_tools_call (fun _ => .err)
        (fun s => if s = "1e3" then .val 1000 else .err) "reserve"
        [("ttl", .str "1e3")] = .handler "reserve" [("ttl", .int 1000)]
    ∧ ([("ttl", JVal.str "600")] : Args) ≠ [("ttl", JVal.int 600)] := by
  refine ⟨⟨by decide, by decide⟩, rfl, rfl, rfl, rfl, ?_, by simp⟩
  have hq : pyTrunc ((1000 : ℚ) * (((1 : Nat) : ℚ))) = 1000 := by
    norm_num [pyTrunc]
  calc http_tools_call (fun _ => .err)
        (fun s => if s = "1e3" then .val 1000 else .err) "reserve"
        [("ttl", JVal.str "1e3")]
      = Dispatched.handler "reserve"
          [("ttl", JVal.int (pyTrunc ((1000 : ℚ) * (((1 : Nat) : ℚ)))))] := rfl
    _ = Dispatched.handler "reserve" [("ttl", JVal.int 1000)] := by rw [hq]

/-- C4 (amended): the HTTP POST transport dispatches over its own table
`TOOL_FUNCTIONS`, a strict subset of the stream dispatcher's catalog
(`ready`, `broadcast`, `discover`, `bv_tui` and `bv_status` are
stream-only); the input coercion `preprocess_args` runs only on the HTTP
side — for every behaviour of its two stdlib parses it invokes the handler
on the coerced arguments, and answers with the error response and no
handler call when the coercion raises — while the stream transport invokes
handlers on the arguments exactly as received; on names both transports
serve, and arguments the coercion returns unchanged, the two transports
invoke the same handler identically. -/
theorem C4_http_subset_with_coercion :
    (∀ name, name ∈ TOOL_FUNCTIONS_names → name ∈ TOOLS_names)
    ∧ ("ready" ∈ TOOLS_names ∧ "ready" ∉ TOOL_FUNCTIONS_names)
    ∧ (∀ name args, name ∈ TOOLS_names →
        stream_tools_call name args = .handler name args)
    ∧ (∀ jl pf name args args2, name ∈ TOOL_FUNCTIONS_names →
        preprocess_args jl pf name args = some args2 →
        http_tools_call jl pf name args = .handler name args2)
    ∧ (∀ jl pf name args, name ∈ TOOL_FUNCTIONS_names →
        preprocess_args jl pf name args = none →
        http_tools_call jl pf name args = .raised)
    ∧ (∀ jl pf name args, name ∈ TOOL_FUNCTIONS_names →
        preprocess_args jl pf name args = some args →
        http_tools_call jl pf name args = stream_tools_call name args) := by
  have hsub : ∀ n, n ∈ TOOL_FUNCTIONS_names → n ∈ TOOLS_names := by
    intro n hn
    fin_cases hn <;> decide
  refine ⟨hsub, ⟨by decide, by decide⟩, ?_, ?_, ?_, ?_⟩
  · intro name args hmem
    simp [stream_tools_call, hmem]
  · intro jl pf name args args2 hmem hpre
    simp [http_tools_call, hmem, hpre]
  · intro jl pf name args hmem hpre
    simp [http_tools_call, hmem, hpre]
  · intro jl pf name args hmem hfix
    have hs : name ∈ TOOLS_names := hsub name hmem
    simp [http_tools_call, stream_tools_call, hmem, hs, hfix]

/-- C4 witness: at `init` with empty arguments the coercion returns the
arguments unchanged for the trivially-instantiated parses, and both
transports invoke the same handler. -/
theorem C4_http_subset_with_coercion_witness :
    http_tools_call (fun _ => .err) (fun _ => .err) "init" [] =
      stream_tools_call "init" [] :=
  C4_http_subset_with_coercion.2.2.2.2.2 (fun _ => .err) (fun _ => .err)
    "init" [] (by decide) rfl

/-! ## Claim and done theorems (C8, C9). -/

/-- C8: Role filtering of `claim`.  With a role `r` (stored lower-cased by
`tool_init`), `claim` considers only ready issues whose tag set is empty or
contains `r` case-insensitively, claims the first such issue in ready order
(marking exactly it in-progress); if none matches it reports `ok:0` with a
message naming the role and issues no store mutation. -/
theorem C8_claim_role_filtering (r : String) (hr : py_lower r = r)
    (ready : List Issue) (hne : ready ≠ []) :
    (ready.filter (fun issue =>
        decide (issue.tags = [] ∨ r ∈ issue.tags.map py_lower)) = [] →
      (¬ ∃ i ∈ ready, i.tags = [] ∨ ∃ t ∈ i.tags, py_lower t = py_lower r)
      ∧ tool_claim (some r) (.ok ready) =
          (.noRole r ("no tasks for role '" ++ r ++ "'"), [.sync, .ready], []))
    ∧ (∀ i rest, ready.filter (fun issue =>
          decide (issue.tags = [] ∨ r ∈ issue.tags.map py_lower)) = i :: rest →
        (i ∈ ready ∧ (i.tags = [] ∨ ∃ t ∈ i.tags, py_lower t = py_lower r)
          ∧ (∀ j ∈ ready, (j.tags = [] ∨ ∃ t ∈ j.tags, py_lower t = py_lower r) →
              ∃ pre post, ready = pre ++ j :: post ∧ (j = i ∨ i ∈ pre))
          ∧ tool_claim (some r) (.ok ready) =
            (.claimed i, [.sync, .ready, .update i.id "in_progress"],
             [("claimed:" ++ i.id, i.title ++ " [" ++ r ++ "]")]))) := by
  have hmatch : ∀ (j : Issue),
      (decide (j.tags = [] ∨ r ∈ j.tags.map py_lower) = true) ↔
      (j.tags = [] ∨ ∃ t ∈ j.tags, py_lower t = py_lower r) := by
    intro j
    rw [decide_eq_true_iff]
    constructor
    · rintro (h | h)
      · exact Or.inl h
      · right
        rcases List.mem_map.mp h with ⟨t, ht, htl⟩
        exact ⟨t, ht, by rw [htl, hr]⟩
    · rintro (h | ⟨t, ht, htl⟩)
      · exact Or.inl h
      · right
        rw [hr] at htl
        exact List.mem_map.mpr ⟨t, ht, htl⟩
  constructor
  · intro hfilter
    constructor
    · rintro ⟨i, hi, hmat⟩
      have : (decide (i.tags = [] ∨ r ∈ i.tags.map py_lower)) = true :=
        (hmatch i).mpr (by
          rcases hmat with h | h
          · exact Or.inl h
          · exact Or.inr h)
      have hin : i ∈ ready.filter (fun issue =>
          decide (issue.tags = [] ∨ r ∈ issue.tags.map py_lower)) :=
        List.mem_filter.mpr ⟨hi, this⟩
      rw [hfilter] at hin
      exact absurd hin (List.not_mem_nil i)
    · simp only [tool_claim, claim_filter]
      rw [if_neg hne, hfilter]
  · intro i rest hfilter
    have hif : i ∈ ready.filter (fun issue =>
        decide (issue.tags = [] ∨ r ∈ issue.tags.map py_lower)) := by
      rw [hfilter]; exact List.mem_cons_self _ _
    have hiready := (List.mem_filter.mp hif).1
    have himatch := (hmatch i).mp (List.mem_filter.mp hif).2
    refine ⟨hiready, himatch, ?_, ?_⟩
    · intro j hj hjmat
      rcases List.append_of_mem hj with ⟨pre, post, hsplit⟩
      refine ⟨pre, post, hsplit, ?_⟩
      by_cases hji : j = i
      · exact Or.inl hji
      · right
        -- `i` is the first match, so it occurs no later than the match `j`
        have hjf : j ∈ ready.filter (fun issue =>
            decide (issue.tags = [] ∨ r ∈ issue.tags.map py_lower)) :=
          List.mem_filter.mpr ⟨hj, (hmatch j).mpr hjmat⟩
        rw [hfilter] at hjf
        rcases List.mem_cons.mp hjf with hjf | hjf
        · exact absurd hjf hji
        · -- j appears in the filtered tail; i, the filtered head, appears
          -- in ready before every tail element, in particular within pre
          have hsub : ready.filter (fun issue =>
              decide (issue.tags = [] ∨ r ∈ issue.tags.map py_lower)) =
              (pre ++ j :: post).filter (fun issue =>
              decide (issue.tags = [] ∨ r ∈ issue.tags.map py_lower)) := by
            rw [hsplit]
          rw [List.filter_append, hfilter] at hsub
          rw [show List.filter (fun issue =>
              decide (issue.tags = [] ∨ r ∈ issue.tags.map py_lower)) (j :: post) =
              j :: List.filter (fun issue =>
              decide (issue.tags = [] ∨ r ∈ issue.tags.map py_lower)) post from by
            rw [List.filter_cons, if_pos ((hmatch j).mpr hjmat)]] at hsub
          cases hpre : pre.filter (fun issue =>
              decide (issue.tags = [] ∨ r ∈ issue.tags.map py_lower)) with
          | nil =>
            rw [hpre] at hsub
            simp at hsub
            exact absurd hsub.1.symm hji
          | cons q qs =>
            rw [hpre] at hsub
            have : i = q := by
              have := congrArg (fun l => l.head? ) hsub
              simpa using this
            rw [this]
            exact (List.mem_filter.mp (hpre ▸ List.mem_cons_self q qs)).1
    · simp only [tool_claim, claim_filter]
      rw [if_neg hne, hfilter]

/-- C8 witness: role `fe` skips a `be`-tagged issue, claims the first
matching (`FE`-tagged, case-insensitively) issue, and reports `ok:0` naming
the role when nothing matches. -/
theorem C8_claim_role_filtering_witness :
    tool_claim (some "fe") (.ok [⟨"3", "t3", 2, ["be"]⟩, ⟨"2", "t2", 2, ["FE"]⟩, ⟨"1", "t1", 2, []⟩]) =
      (.claimed ⟨"2", "t2", 2, ["FE"]⟩, [.sync, .ready, .update "2" "in_progress"],
       [("claimed:2", "t2 [fe]")])
    ∧ tool_claim (some "qa") (.ok [⟨"3", "t3", 2, ["be"]⟩]) =
      (.noRole "qa" "no tasks for role 'qa'", [.sync, .ready], []) := by
  constructor
  · exact (C8_claim_role_filtering "fe" (by decide)
      [⟨"3", "t3", 2, ["be"]⟩, ⟨"2", "t2", 2, ["FE"]⟩, ⟨"1", "t1", 2, []⟩] (by simp)).2
      ⟨"2", "t2", 2, ["FE"]⟩ [⟨"1", "t1", 2, []⟩] rfl |>.2.2.2
  · exact (C8_claim_role_filtering "qa" (by decide) [⟨"3", "t3", 2, ["be"]⟩] (by simp)).1
      rfl |>.2

/-- C9: `done` is atomic on close failure.  If closing the issue returns an
error, `tool_done` returns that error envelope with the session unchanged —
no reservation file removed, the held-reservations set, current task and
completed counter intact, and no `done:<id>` message sent. -/
theorem C9_done_atomic_on_close_failure (ph : Chars → Chars)
    (argId : Option String) (argMsg : Option String) (sess : DoneSession)
    (store : ResStore) (e : String) (iid : String)
    (hid : (match argId with | some v => some v | none => sess.issue) = some iid)
    (hne : iid ≠ "") :
    tool_done ph argId argMsg sess store (.error e) =
      (.errClose e, sess, store, [], [.close iid (argMsg.getD "completed")]) := by
  simp only [tool_done, hid]
  rw [if_neg hne]

/-- C9 witness: with a failing close, `done` hands back the error and leaves
the session, the reservation directory, and the outbox untouched. -/
theorem C9_done_atomic_on_close_failure_witness :
    tool_done (fun k => k) (some "bv-7") none
      ⟨some "bv-7", some "bv-7", 3, ["x".data]⟩ [("x".data, ⟨"x".data, "A", "w", 0, 100⟩)]
      (.error "issue not found") =
      (.errClose "issue not found", ⟨some "bv-7", some "bv-7", 3, ["x".data]⟩,
       [("x".data, ⟨"x".data, "A", "w", 0, 100⟩)], [], [.close "bv-7" "completed"]) := by
  exact C9_done_atomic_on_close_failure (fun k => k) (some "bv-7") none
    ⟨some "bv-7", some "bv-7", 3, ["x".data]⟩ [("x".data, ⟨"x".data, "A", "w", 0, 100⟩)]
    "issue not found" "bv-7" rfl (by decide)

/-! ## Mailbox theorems (C5, C6). -/

theorem cursorLookup_filter_ne (cs : List (String × Nat)) (b a : String) (h : a ≠ b) :
    cursorLookup (cs.filter (fun av => av.1 ≠ b)) a = cursorLookup cs a := by
  induction cs with
  | nil => rfl
  | cons av rest ih =>
    by_cases hb : av.1 = b
    · rw [show List.filter (fun av => decide (av.1 ≠ b)) (av :: rest) =
          List.filter (fun av => decide (av.1 ≠ b)) rest by simp [List.filter, hb]]
      rw [ih]
      show _ = (if av.1 = a then some av.2 else cursorLookup rest a)
      rw [if_neg (fun he => h (by rw [← he, hb]))]
    · rw [show List.filter (fun av => decide (av.1 ≠ b)) (av :: rest) =
          av :: List.filter (fun av => decide (av.1 ≠ b)) rest by simp [List.filter, hb]]
      show (if av.1 = a then some av.2 else _) = (if av.1 = a then some av.2 else cursorLookup rest a)
      by_cases hva : av.1 = a
      · rw [if_pos hva, if_pos hva]
      · rw [if_neg hva, if_neg hva, ih]

theorem getCursor_setCursor_self (d : MailDir) (a : String) (v : Nat) :
    getCursor (setCursor d a v) a = v := by
  simp [getCursor, setCursor, cursorLookup]

theorem getCursor_setCursor_ne (d : MailDir) (b : String) (v : Nat) (a : String)
    (h : a ≠ b) : getCursor (setCursor d b v) a = getCursor d a := by
  show ((if b = a then some v else cursorLookup _ a).getD 0) = _
  rw [if_neg (fun he => h he.symm), cursorLookup_filter_ne d.cursors b a h]
  rfl

theorem setCursor_files (d : MailDir) (a : String) (v : Nat) :
    (setCursor d a v).files = d.files := rfl

/-- Membership in one directory pass. -/
theorem mem_dirCollect (agent : String) (d : MailDir) (isGlob unread_only : Bool)
    (rm : RecvMsg) :
    rm ∈ dirCollect agent d isGlob unread_only ↔
    ∃ mf ∈ mailWindow d.files, recipOk agent mf ∧
      ¬(unread_only = true ∧ mf.ts ≤ getCursor d agent) ∧ rm = ⟨mf.msg, isGlob⟩ := by
  unfold dirCollect
  rw [List.mem_filterMap]
  constructor
  · rintro ⟨mf, hmf, hf⟩
    by_cases h1 : mf.msg.t ≠ "all" ∧ mf.msg.t ≠ agent
    · rw [if_pos h1] at hf
      exact absurd hf (by simp)
    · rw [if_neg h1] at hf
      by_cases h2 : unread_only = true ∧ mf.ts ≤ getCursor d agent
      · rw [if_pos h2] at hf
        exact absurd hf (by simp)
      · rw [if_neg h2] at hf
        refine ⟨mf, hmf, ?_, h2, (Option.some.inj hf).symm⟩
        push_neg at h1
        by_cases hall : mf.msg.t = "all"
        · exact Or.inl hall
        · exact Or.inr (h1 hall)
  · rintro ⟨mf, hmf, hrecip, hunread, hrm⟩
    refine ⟨mf, hmf, ?_⟩
    rw [if_neg ?_, if_neg hunread, hrm]
    rintro ⟨hna, hnb⟩
    rcases hrecip with h | h
    · exact hna h
    · exact hnb h

theorem dirCollect_eq_nil (agent : String) (d : MailDir) (isGlob unread_only : Bool)
    (h : dirCollect agent d isGlob unread_only = []) :
    ∀ mf ∈ mailWindow d.files, recipOk agent mf →
      unread_only = true ∧ mf.ts ≤ getCursor d agent := by
  intro mf hmf hrecip
  by_contra hcon
  have : (⟨mf.msg, isGlob⟩ : RecvMsg) ∈ dirCollect agent d isGlob unread_only :=
    (mem_dirCollect agent d isGlob unread_only _).mpr ⟨mf, hmf, hrecip, hcon, rfl⟩
  rw [h] at this
  exact absurd this (List.not_mem_nil _)

theorem pySliceLast_subset (n : Nat) (l : List α) : ∀ x ∈ pySliceLast n l, x ∈ l := by
  intro x hx
  unfold pySliceLast at hx
  split at hx
  · exact hx
  · exact List.drop_subset _ _ hx

theorem mem_sortMsgs (msgs : List RecvMsg) (rm : RecvMsg) :
    rm ∈ sortMsgs msgs ↔ rm ∈ msgs :=
  List.mem_insertionSort _

/-- Provenance of a received message: it was collected from the local pass
or (when the hub was included) from the hub pass. -/
theorem recv_out_provenance (agent : String) (w : MailWorld) (n : Nat)
    (u i : Bool) (now : Nat) :
    ∀ rm ∈ (recv_msgs agent w n u i now).1,
      rm ∈ dirCollect agent w.localDir false u ∨
      (i = true ∧ rm ∈ dirCollect agent w.hubDir true u) := by
  intro rm hrm
  unfold recv_msgs at hrm
  by_cases hi : i = true
  · rw [if_pos hi] at hrm
    have := pySliceLast_subset _ _ rm hrm
    rcases List.mem_append.mp ((mem_sortMsgs _ rm).mp this) with h | h
    · exact Or.inl h
    · exact Or.inr ⟨hi, h⟩
  · rw [if_neg hi] at hrm
    exact Or.inl ((mem_sortMsgs _ rm).mp (pySliceLast_subset _ _ rm hrm))

theorem sortFiles_eq_self (files : List MsgFile)
    (h : List.Pairwise (fun a b => a.ts < b.ts) files) : sortFiles files = files :=
  List.Sorted.insertionSort_eq (h.imp (fun hab => Nat.le_of_lt hab))

theorem drop_succ_subset (m : Nat) (l : List α) : ∀ x ∈ l.drop (m + 1), x ∈ l.drop m := by
  intro x hx
  have h1 : l.drop (m + 1) = (l.drop m).drop 1 := by
    rw [List.drop_drop]
  rw [h1] at hx
  exact (List.drop_sublist 1 (l.drop m)).subset hx

/-- Appending a file newer than everything in a sorted directory can only
push old files out of the 50-file window, never pull new old files in. -/
theorem mailWindow_append_new (files : List MsgFile) (mf : MsgFile)
    (hord : List.Pairwise (fun a b => a.ts < b.ts) files)
    (hfresh : ∀ f ∈ files, f.ts < mf.ts) :
    ∀ x ∈ mailWindow (files ++ [mf]), x = mf ∨ x ∈ mailWindow files := by
  intro x hx
  have hord2 : List.Pairwise (fun a b => a.ts < b.ts) (files ++ [mf]) := by
    rw [List.pairwise_append]
    exact ⟨hord, List.pairwise_singleton _ _, fun a ha b hb => by
      simp at hb
      rw [hb]
      exact hfresh a ha⟩
  unfold mailWindow takeLast at hx
  rw [sortFiles_eq_self _ hord2] at hx
  unfold mailWindow takeLast
  rw [sortFiles_eq_self _ hord]
  by_cases hle : (files ++ [mf]).length ≤ 50
  · rw [show (files ++ [mf]).length - 50 = 0 from by omega, List.drop_zero] at hx
    rcases List.mem_append.mp hx with h | h
    · right
      rw [show files.length - 50 = 0 from by simp at hle; omega, List.drop_zero]
      exact h
    · left
      simpa using h
  · push_neg at hle
    have hlen : files.length ≥ 50 := by simp at hle; omega
    have hk : (files ++ [mf]).length - 50 = (files.length - 50) + 1 := by
      simp; omega
    rw [hk, List.drop_append_of_le_length (by omega)] at hx
    rcases List.mem_append.mp hx with h | h
    · right
      exact drop_succ_subset _ _ x h
    · left
      simpa using h

theorem recv_localDir (a : String) (w : MailWorld) (n : Nat) (u i : Bool) (now : Nat) :
    (recv_msgs a w n u i now).2.localDir =
      (if dirCollect a w.localDir false u ≠ [] then setCursor w.localDir a now
       else w.localDir) := by
  simp only [recv_msgs]
  split <;> rfl

theorem recv_hubDir_incl (a : String) (w : MailWorld) (n : Nat) (u : Bool) (now : Nat) :
    (recv_msgs a w n u true now).2.hubDir =
      (if dirCollect a w.localDir false u ++ dirCollect a w.hubDir true u ≠ [] then
        setCursor w.hubDir a now
       else w.hubDir) := rfl

theorem recv_hubDir_noincl (a : String) (w : MailWorld) (n : Nat) (u : Bool) (now : Nat) :
    (recv_msgs a w n u false now).2.hubDir = w.hubDir := rfl

theorem recv_files_unchanged (a : String) (w : MailWorld) (n : Nat) (u i : Bool) (now : Nat) :
    (recv_msgs a w n u i now).2.localDir.files = w.localDir.files ∧
    (recv_msgs a w n u i now).2.hubDir.files = w.hubDir.files := by
  constructor
  · rw [recv_localDir]
    split <;> rfl
  · cases i with
    | false => rw [recv_hubDir_noincl]
    | true =>
      rw [recv_hubDir_incl]
      split <;> rfl

theorem cursorInv_step (a : String) (g : Bool) (τ : Nat) (w : MailWorld) (t : Nat)
    (w' : MailWorld) (t' : Nat) (hstep : MailStep w t w' t') (hτ : τ ≤ t) :
    t ≤ t' ∧ (FilesOrdered w → FilesOrdered w' ∧ (CursorInv a g τ w → CursorInv a g τ w')) := by
  cases hstep with
  | send _ glob mf _ hle hts hfresh heq =>
    subst heq
    refine ⟨hle, fun hord => ⟨?_, ?_⟩⟩
    · cases glob with
      | false =>
        refine ⟨?_, hord.2⟩
        show List.Pairwise _ (w.localDir.files ++ [mf])
        rw [List.pairwise_append]
        exact ⟨hord.1, List.pairwise_singleton _ _, fun x hx y hy => by
          simp at hy
          rw [hy]
          exact hfresh x (by simpa using hx)⟩
      | true =>
        refine ⟨hord.1, ?_⟩
        show List.Pairwise _ (w.hubDir.files ++ [mf])
        rw [List.pairwise_append]
        exact ⟨hord.2, List.pairwise_singleton _ _, fun x hx y hy => by
          simp at hy
          rw [hy]
          exact hfresh x (by simpa using hx)⟩
    · intro hinv
      by_cases hgg : g = glob
      · subst hgg
        have hdir : dirOf (send_msg w g mf) g =
            { dirOf w g with files := (dirOf w g).files ++ [mf] } := by
          cases g <;> rfl
        have hfresh2 : ∀ f ∈ (dirOf w g).files, f.ts < mf.ts := by
          intro f hf
          apply hfresh
          cases g
          · simpa using hf
          · simpa using hf
        have hordg : List.Pairwise (fun x y => x.ts < y.ts) (dirOf w g).files := by
          cases g
          · exact hord.1
          · exact hord.2
        rcases hinv with hcur | hwin
        · left
          rw [hdir]
          exact hcur
        · right
          intro x hx hrecip
          rw [hdir] at hx
          rcases mailWindow_append_new _ mf hordg hfresh2 x hx with hxm | hxo
          · right
            rw [hxm, hts]
            omega
          · rw [hdir]
            show x.ts ≤ getCursor (dirOf w g) a ∨ τ ≤ x.ts
            exact hwin x hxo hrecip
      · have hdir : dirOf (send_msg w glob mf) g = dirOf w g := by
          cases g <;> cases glob <;> first | rfl | exact absurd rfl hgg
        unfold CursorInv
        rw [hdir]
        exact hinv
  | recv _ b n u i _ hle heq =>
    subst heq
    refine ⟨hle, fun hord => ⟨?_, ?_⟩⟩
    · obtain ⟨hl, hh⟩ := recv_files_unchanged b w n u i t'
      exact ⟨hl ▸ hord.1, hh ▸ hord.2⟩
    · intro hinv
      have hcases : dirOf (recv_msgs b w n u i t').2 g = dirOf w g ∨
          dirOf (recv_msgs b w n u i t').2 g = setCursor (dirOf w g) b t' := by
        cases g with
        | false =>
          show (recv_msgs b w n u i t').2.localDir = w.localDir ∨
            (recv_msgs b w n u i t').2.localDir = setCursor w.localDir b t'
          rw [recv_localDir]
          split
          · right; rfl
          · left; rfl
        | true =>
          show (recv_msgs b w n u i t').2.hubDir = w.hubDir ∨
            (recv_msgs b w n u i t').2.hubDir = setCursor w.hubDir b t'
          cases i with
          | false => left; rw [recv_hubDir_noincl]
          | true =>
            rw [recv_hubDir_incl]
            split
            · right; rfl
            · left; rfl
      rcases hcases with hdir | hdir
      · unfold CursorInv
        rw [hdir]
        exact hinv
      · by_cases hab : a = b
        · subst hab
          left
          rw [hdir, getCursor_setCursor_self]
          omega
        · unfold CursorInv
          rw [hdir, getCursor_setCursor_ne _ _ _ _ hab, setCursor_files]
          exact hinv

theorem cursorInv_reach (a : String) (g : Bool) (τ : Nat) (w1 : MailWorld) (t1 : Nat)
    (w2 : MailWorld) (t2 : Nat) (hreach : MailReach w1 t1 w2 t2) (hτ : τ ≤ t1)
    (hord : FilesOrdered w1) (hinv : CursorInv a g τ w1) :
    τ ≤ t2 ∧ FilesOrdered w2 ∧ CursorInv a g τ w2 := by
  induction hreach with
  | refl => exact ⟨hτ, hord, hinv⟩
  | step hprev hstep ih =>
    obtain ⟨hτ1, hord1, hinv1⟩ := ih
    obtain ⟨hle, hrest⟩ := cursorInv_step a g τ _ _ _ _ hstep hτ1
    obtain ⟨hord2, hinvf⟩ := hrest hord1
    exact ⟨Nat.le_trans hτ1 hle, hord2, hinvf hinv1⟩

/-- The cursor invariant holds right after any `recv` by `a` at time `τ` that
processed directory `g`. -/
theorem cursorInv_after_recv (a : String) (g : Bool) (w0 : MailWorld) (τ : Nat)
    (n1 : Nat) (u1 incl1 : Bool) (hg1 : g = true → incl1 = true) :
    CursorInv a g τ (recv_msgs a w0 n1 u1 incl1 τ).2 := by
  cases g with
  | false =>
    by_cases hms : dirCollect a w0.localDir false u1 = []
    · right
      intro mf hmf hrecip
      have hdir : dirOf (recv_msgs a w0 n1 u1 incl1 τ).2 false = w0.localDir := by
        show (recv_msgs a w0 n1 u1 incl1 τ).2.localDir = w0.localDir
        rw [recv_localDir, if_neg (by simpa using hms)]
      rw [hdir] at hmf ⊢
      exact Or.inl (dirCollect_eq_nil a w0.localDir false u1 hms mf hmf hrecip).2
    · left
      have hdir : dirOf (recv_msgs a w0 n1 u1 incl1 τ).2 false = setCursor w0.localDir a τ := by
        show (recv_msgs a w0 n1 u1 incl1 τ).2.localDir = _
        rw [recv_localDir, if_pos (by simpa using hms)]
      rw [hdir, getCursor_setCursor_self]
  | true =>
    have hincl : incl1 = true := hg1 rfl
    subst hincl
    by_cases hms : dirCollect a w0.localDir false u1 ++ dirCollect a w0.hubDir true u1 = []
    · right
      intro mf hmf hrecip
      have hdir : dirOf (recv_msgs a w0 n1 u1 true τ).2 true = w0.hubDir := by
        show (recv_msgs a w0 n1 u1 true τ).2.hubDir = w0.hubDir
        rw [recv_hubDir_incl, if_neg (by simpa using hms)]
      have hhub : dirCollect a w0.hubDir true u1 = [] := (List.append_eq_nil.mp hms).2
      rw [hdir] at hmf ⊢
      exact Or.inl (dirCollect_eq_nil a w0.hubDir true u1 hhub mf hmf hrecip).2
    · left
      have hdir : dirOf (recv_msgs a w0 n1 u1 true τ).2 true = setCursor w0.hubDir a τ := by
        show (recv_msgs a w0 n1 u1 true τ).2.hubDir = _
        rw [recv_hubDir_incl, if_pos (by simpa using hms)]
      rw [hdir, getCursor_setCursor_self]

theorem sortMsgs_sorted (msgs : List RecvMsg) :
    List.Sorted (fun x y => x.msg.ts ≤ y.msg.ts) (sortMsgs msgs) :=
  List.sorted_insertionSort _ _

theorem pySliceLast_sorted (n : Nat) (l : List RecvMsg)
    (h : List.Sorted (fun x y => x.msg.ts ≤ y.msg.ts) l) :
    List.Sorted (fun x y => x.msg.ts ≤ y.msg.ts) (pySliceLast n l) := by
  unfold pySliceLast
  split
  · exact h
  · exact List.Pairwise.drop h

theorem pySliceLast_length_le (n : Nat) (l : List RecvMsg) (h : n ≠ 0) :
    (pySliceLast n l).length ≤ n := by
  unfold pySliceLast
  rw [if_neg h, List.length_drop]
  omega

/-- C5: mailbox recv contract.  The claim that after a non-empty read the
cursor of each scope is advanced to the current time fails: the local cursor
write is guarded by the local pass alone, while the hub cursor write is
guarded by the shared accumulator, so a read that only the team hub feeds
returns messages yet leaves the local cursor untouched.  Here the call
returns the hub message and the local cursor for "B" stays at 0, not 200. -/
theorem C5_counterexample :
    (recv_msgs "B" wC5 5 false true 200).1 ≠ [] ∧
    getCursor (recv_msgs "B" wC5 5 false true 200).2.localDir "B" = 0 := by
  decide

/-- C5 (amended): the recv contract with the corrected cursor rule.  Each
directory pass reads at most the last 50 files; every returned message is
addressed to "all" or to the reader; the output is the merge of the local
pass and, when included, the hub pass, sorted by message timestamp with the
last max_n kept (max_n = 0 keeps all); the local cursor advances to now
exactly when the local pass is non-empty, and the hub cursor, when the hub
is included, exactly when the cumulative list is non-empty. -/
theorem C5_recv_contract (agent : String) (w : MailWorld) (n : Nat)
    (u i : Bool) (now : Nat) :
    (∀ d : MailDir, (mailWindow d.files).length ≤ 50) ∧
    (∀ rm ∈ (recv_msgs agent w n u i now).1,
      rm.msg.t = "all" ∨ rm.msg.t = agent) ∧
    ((recv_msgs agent w n u i now).1 =
      pySliceLast n (sortMsgs (dirCollect agent w.localDir false u ++
        (if i then dirCollect agent w.hubDir true u else [])))) ∧
    List.Sorted (fun x y => x.msg.ts ≤ y.msg.ts) (recv_msgs agent w n u i now).1 ∧
    (n ≠ 0 → (recv_msgs agent w n u i now).1.length ≤ n) ∧
    ((recv_msgs agent w n u i now).2.localDir =
      if dirCollect agent w.localDir false u ≠ [] then setCursor w.localDir agent now
      else w.localDir) ∧
    ((recv_msgs agent w n u i now).2.hubDir =
      if i then
        (if dirCollect agent w.localDir false u ++ dirCollect agent w.hubDir true u ≠ [] then
          setCursor w.hubDir agent now
        else w.hubDir)
      else w.hubDir) := by
  have heq : (recv_msgs agent w n u i now).1 =
      pySliceLast n (sortMsgs (dirCollect agent w.localDir false u ++
        (if i then dirCollect agent w.hubDir true u else []))) := by
    cases i <;> simp [recv_msgs]
  refine ⟨?_, ?_, heq, ?_, ?_, recv_localDir agent w n u i now, ?_⟩
  · intro d
    unfold mailWindow takeLast sortFiles
    rw [List.length_drop, List.length_insertionSort]
    omega
  · intro rm hrm
    rcases recv_out_provenance agent w n u i now rm hrm with h | ⟨_, h⟩ <;>
    · obtain ⟨mf, _, hrecip, _, hrm2⟩ := (mem_dirCollect _ _ _ _ _).mp h
      rw [hrm2]
      exact hrecip
  · rw [heq]
    exact pySliceLast_sorted _ _ (sortMsgs_sorted _)
  · intro hn
    rw [heq]
    exact pySliceLast_length_le _ _ hn
  · cases i with
    | false => simpa using recv_hubDir_noincl agent w n u now
    | true => simpa using recv_hubDir_incl agent w n u now

/-- C5 witness: the contract at a concrete world; the output-length bound is
discharged at max_n = 5 with 5 distinct from 0. -/
theorem C5_recv_contract_witness :
    (recv_msgs "B" wC5 5 false true 200).1.length ≤ 5 :=
  (C5_recv_contract "B" wC5 5 false true 200).2.2.2.2.1 (by decide)

/-- C6: cursor monotonicity.  After a recv by agent a at time τ that
processed directory g (the hub needs include_global on that call), followed
by any interleaving of sends with per-directory fresh timestamps and recvs
by arbitrary agents at non-decreasing times, every message a later
unread_only recv by a returns for directory g originates in a windowed file
whose epoch is at least τ — no message with epoch strictly below τ comes
back. -/
theorem C6_cursor_monotonicity (a : String) (g : Bool) (w0 : MailWorld)
    (τ : Nat) (n1 : Nat) (u1 incl1 : Bool) (hord0 : FilesOrdered w0)
    (hg1 : g = true → incl1 = true)
    (w2 : MailWorld) (t2 : Nat)
    (hreach : MailReach (recv_msgs a w0 n1 u1 incl1 τ).2 τ w2 t2)
    (n2 : Nat) (incl2 : Bool) :
    ∀ rm ∈ (recv_msgs a w2 n2 true incl2 t2).1, rm.isGlobal = g →
      ∃ mf ∈ mailWindow (dirOf w2 g).files, rm.msg = mf.msg ∧ τ ≤ mf.ts := by
  have hord1 : FilesOrdered (recv_msgs a w0 n1 u1 incl1 τ).2 := by
    obtain ⟨hl, hh⟩ := recv_files_unchanged a w0 n1 u1 incl1 τ
    exact ⟨hl ▸ hord0.1, hh ▸ hord0.2⟩
  have hinv1 : CursorInv a g τ (recv_msgs a w0 n1 u1 incl1 τ).2 :=
    cursorInv_after_recv a g w0 τ n1 u1 incl1 hg1
  obtain ⟨hτ2, hord2, hinv2⟩ :=
    cursorInv_reach a g τ _ τ w2 t2 hreach (Nat.le_refl τ) hord1 hinv1
  intro rm hrm hglob
  rcases recv_out_provenance a w2 n2 true incl2 t2 rm hrm with h | ⟨hi2, h⟩
  · obtain ⟨mf, hmf, hrecip, hunread, hrmeq⟩ := (mem_dirCollect _ _ _ _ _).mp h
    have hgf : g = false := by rw [hrmeq] at hglob; exact hglob.symm
    subst hgf
    have hgt : getCursor w2.localDir a < mf.ts := by
      by_contra hle
      push_neg at hle
      exact hunread ⟨rfl, hle⟩
    refine ⟨mf, hmf, by rw [hrmeq], ?_⟩
    have hcc : getCursor (dirOf w2 false) a = getCursor w2.localDir a := rfl
    rcases hinv2 with hc | hw
    · rw [hcc] at hc
      omega
    · rcases hw mf hmf hrecip with hle | hτle
      · rw [hcc] at hle
        omega
      · exact hτle
  · obtain ⟨mf, hmf, hrecip, hunread, hrmeq⟩ := (mem_dirCollect _ _ _ _ _).mp h
    have hgt' : g = true := by rw [hrmeq] at hglob; exact hglob.symm
    subst hgt'
    have hgt : getCursor w2.hubDir a < mf.ts := by
      by_contra hle
      push_neg at hle
      exact hunread ⟨rfl, hle⟩
    refine ⟨mf, hmf, by rw [hrmeq], ?_⟩
    have hcc : getCursor (dirOf w2 true) a = getCursor w2.hubDir a := rfl
    rcases hinv2 with hc | hw
    · rw [hcc] at hc
      omega
    · rcases hw mf hmf hrecip with hle | hτle
      · rw [hcc] at hle
        omega
      · exact hτle

/-- C6 witness: one old local message at epoch 5, a recv by "B" at time 10,
then a fresh local message at epoch 20; the second, unread-only recv at time
20 returns the fresh message and the theorem locates its originating file at
epoch 20, at or above 10. -/
theorem C6_cursor_monotonicity_witness :
    ∃ mf ∈ mailWindow
      (dirOf (send_msg (recv_msgs "B" wC6 3 false false 10).2 false mfC6b) false).files,
      mfC6b.msg = mf.msg ∧ 10 ≤ mf.ts :=
  C6_cursor_monotonicity "B" false wC6 10 3 false false
    ⟨List.pairwise_singleton _ _, List.Pairwise.nil⟩
    (fun h => h)
    (send_msg (recv_msgs "B" wC6 3 false false 10).2 false mfC6b) 20
    (MailReach.step (MailReach.refl _ _)
      (MailStep.send _ 10 20 false mfC6b _ (by omega) rfl (by decide) rfl))
    3 false ⟨mfC6b.msg, false⟩ (by decide) rfl

end BeadsVillage
